import Mathlib

/-!
# lctime: locale-aware strftime

A shallow embedding of `parse.go` and `directives.go` of package `lctime`,
followed by theorems about the format scanner, the directive dispatcher, the
numeral translator and the padding engine.

Conventions of the embedding:

* a Go `string` is the list of its bytes (`GoString`), a byte being a natural
  number below 256; indexing and slicing of strings are byte operations, as in
  Go;
* a Go `int` is an `Int`; `/` and `%` of Go truncate towards zero and are
  `Int.tdiv` and `Int.tmod`; where the result of an operation on arbitrary
  arguments can leave the range of the 64-bit `int`, it wraps (`wrapInt`);
* a run-time panic (index out of range) and the exhaustion of the call stack
  by nested composite directives are values of `Fault`; functions that can
  fail return `Except Fault _`;
* `time.Time` is the record of the values its accessor methods return.
-/

namespace lctime

/-- A Go string: its bytes, in order. -/
abbrev GoString := List Nat

/-- The bytes of a string literal made of ASCII characters. -/
def str (s : String) : GoString := s.data.map Char.toNat

deriving instance DecidableEq for Except

/-- The ways in which the rendering path can fail to return. -/
inductive Fault where
  /-- Go run-time panic: index out of range. -/
  | indexOutOfRange
  /-- The nesting of composite directives went deeper than the stack allows. -/
  | stackExhausted
  deriving DecidableEq, Repr

/-! ## Standard library: `time`, `unicode/utf8`, `fmt` -/

/-- The observable content of a `time.Time`: what `Year()`, `Month()`, `Day()`,
`Hour()`, `Minute()`, `Second()`, `Weekday()` (Sunday = 0), `YearDay()`
(1-based) and `Zone()` (abbreviation, offset in seconds east of UTC) return. -/
structure Time where
  Year : Int
  Month : Int
  Day : Int
  Hour : Int
  Minute : Int
  Second : Int
  Weekday : Int
  YearDay : Int
  Zone : GoString × Int
  deriving DecidableEq, Repr

/-- Whether a year is a leap year (`time.isLeap`). -/
def isLeap (year : Int) : Bool :=
  year.tmod 4 = 0 ∧ (year.tmod 100 ≠ 0 ∨ year.tmod 400 = 0)

/-- Number of days of a year. -/
def daysIn (year : Int) : Int := if isLeap year then 366 else 365

/-- The ISO 8601 year and week number (`Time.ISOWeek`): the year and week of the
Thursday of the Monday-based week that holds the date. -/
def Time.ISOWeek (t : Time) : Int × Int :=
  let d0 := 4 - t.Weekday
  let d := if d0 = 4 then -3 else d0
  let yday := t.YearDay - 1 + d
  if yday < 0 then
    (t.Year - 1, (yday + daysIn (t.Year - 1)).tdiv 7 + 1)
  else if yday ≥ daysIn t.Year then
    (t.Year + 1, (yday - daysIn t.Year).tdiv 7 + 1)
  else
    (t.Year, yday.tdiv 7 + 1)

/-- The tables `first` and `acceptRanges` of `unicode/utf8` in one: for a byte
that can start a multi-byte sequence, the length of the sequence and the
accepted range of its second byte; `none` for every other byte. -/
def first (c : Nat) : Option (Nat × Nat × Nat) :=
  if 0xC2 ≤ c ∧ c ≤ 0xDF then some (2, 0x80, 0xBF)
  else if c = 0xE0 then some (3, 0xA0, 0xBF)
  else if 0xE1 ≤ c ∧ c ≤ 0xEC then some (3, 0x80, 0xBF)
  else if c = 0xED then some (3, 0x80, 0x9F)
  else if 0xEE ≤ c ∧ c ≤ 0xEF then some (3, 0x80, 0xBF)
  else if c = 0xF0 then some (4, 0x90, 0xBF)
  else if 0xF1 ≤ c ∧ c ≤ 0xF3 then some (4, 0x80, 0xBF)
  else if c = 0xF4 then some (4, 0x80, 0x8F)
  else none

/-- One iteration of the loop of `utf8.RuneCountInString` on a non-empty
string: the number of bytes the iteration advances by, and whether these bytes
are a well-formed encoding (an ill-formed byte advances by one). -/
def decodeStep : GoString → Nat × Bool
  | [] => (0, false)
  | c :: rest =>
    if c < 0x80 then (1, true)
    else
      match first c with
      | none => (1, false)
      | some (size, lo, hi) =>
        if rest.length + 1 < size then (1, false)
        else if rest.getD 0 0 < lo ∨ hi < rest.getD 0 0 then (1, false)
        else if size = 2 then (2, true)
        else if rest.getD 1 0 < 0x80 ∨ 0xBF < rest.getD 1 0 then (1, false)
        else if size = 3 then (3, true)
        else if rest.getD 2 0 < 0x80 ∨ 0xBF < rest.getD 2 0 then (1, false)
        else (4, true)

/-- The loop of `utf8.RuneCountInString`, with the number of iterations left. -/
def runeCountLoop : Nat → GoString → Nat
  | 0, _ => 0
  | _ + 1, [] => 0
  | fuel + 1, c :: rest =>
    1 + runeCountLoop fuel ((c :: rest).drop (decodeStep (c :: rest)).1)

/-- The number of runes of a string (`utf8.RuneCountInString`); every
ill-formed byte counts as one rune. The loop advances by at least one byte in
each iteration, so the length of the string bounds the number of iterations. -/
def RuneCountInString (s : GoString) : Nat := runeCountLoop s.length s

/-- The loop of `utf8.ValidString`, with the number of iterations left. -/
def validLoop : Nat → GoString → Bool
  | 0, s => s.isEmpty
  | _ + 1, [] => true
  | fuel + 1, c :: rest =>
    (decodeStep (c :: rest)).2 && validLoop fuel ((c :: rest).drop (decodeStep (c :: rest)).1)

/-- Whether a string is well-formed UTF-8 (`utf8.ValidString`). -/
def ValidString (s : GoString) : Bool := validLoop s.length s

/-- A string that is the well-formed UTF-8 encoding of exactly one code
point. -/
def isRune (s : GoString) : Bool :=
  (decodeStep s).2 && (decodeStep s).1 == s.length

/-- The loop that writes the decimal digits of a positive number, last digit
first, in front of what is already written. -/
def formatBits : Nat → Nat → GoString → GoString
  | 0, _, acc => acc
  | fuel + 1, n, acc =>
    if n = 0 then acc else formatBits fuel (n / 10) ((48 + n % 10) :: acc)

/-- The ASCII decimal digits of a natural number (`strconv.FormatUint`, base
10); the number itself bounds the number of its digits. -/
def FormatUint (n : Nat) : GoString :=
  if n = 0 then str "0" else formatBits n n []

/-- The result of `fmt.Sprintf("%d", i)`. -/
def sprintf_d (i : Int) : GoString :=
  if i < 0 then str "-" ++ FormatUint i.natAbs else FormatUint i.natAbs

/-- The result of `fmt.Sprintf("%+05d", i)`: the sign is always written and
counts in the width of 5, the digits are filled with zeros to the left up to
that width, and a number that needs more room is written in full. -/
def sprintf_plus05d (i : Int) : GoString :=
  let digits := FormatUint i.natAbs
  (if i < 0 then str "-" else str "+") ++ List.replicate (4 - digits.length) 48 ++ digits

/-! ## The locale record -/

/-- Modelled from the spec: the type `localeData` is declared outside the given
sources. It holds the weekday and month names, the a.m./p.m. pair, the numeral
glyphs (none, for ASCII digits) and the four composite templates. The name
tables are sequences indexed from 0; their lengths are not checked by the
code. -/
structure localeData where
  ShortDays : List GoString
  Days : List GoString
  ShortMonths : List GoString
  Months : List GoString
  AMPM : List GoString
  Numbers : List GoString
  DateTime : GoString
  Date : GoString
  Time : GoString
  TimeAMPM : GoString
  deriving DecidableEq, Repr

/-- The Go index expression `xs[i]`: it panics when `i` is out of range. -/
def index (xs : List GoString) (i : Int) : Except Fault GoString :=
  if i < 0 then .error .indexOutOfRange
  else
    match xs[i.toNat]? with
    | some x => .ok x
    | none => .error .indexOutOfRange

/-! ## directives.go: numeral translation and padding -/

/-- The value that a 64-bit Go `int` takes for the mathematical result `x` of
an addition or subtraction: `x` modulo 2^64, in the range from -2^63 to
2^63 - 1. -/
def wrapInt (x : Int) : Int :=
  (x + 9223372036854775808) % 18446744073709551616 - 9223372036854775808

/-- The loop of `pad`: `paddingCh` is put in front of `s` once per iteration. -/
def padLoop (paddingCh : GoString) : Nat → GoString → GoString
  | 0, s => s
  | n + 1, s => padLoop paddingCh n (paddingCh ++ s)

/-- The variable `paddingCh` of `pad`: "0", or `Numbers[0]` when the locale
has numeral glyphs. -/
def paddingCh (lc : localeData) : GoString :=
  match lc.Numbers with
  | [] => str "0"
  | zero :: _ => zero

/-- The method `pad`: `s` is filled on the left with the zero glyph of the
locale up to `length` runes. The subtraction is that of the Go `int`: it wraps
when `length - runes(s)` is below -2^63. -/
def pad (lc : localeData) (s : GoString) (length : Int) : GoString :=
  if (RuneCountInString s : Int) = length then s
  else
    let paddingCount := wrapInt (length - (RuneCountInString s : Int))
    if paddingCount < 0 then s
    else padLoop (paddingCh lc) paddingCount.toNat s

/-- The loop of `translateNumber`: while `i > 0` the glyph of the last digit of
`i` is put in front of `s` and `i` is divided by 10. -/
def translateLoop (lc : localeData) : Nat → Int → GoString → Except Fault GoString
  | 0, _, s => .ok s
  | fuel + 1, i, s =>
    if i > 0 then do
      let glyph ← index lc.Numbers (i.tmod 10)
      translateLoop lc fuel (i.tdiv 10) (glyph ++ s)
    else .ok s

/-- The method `translateNumber`: the number in the glyphs of the locale. A
positive `i` is divided by 10 in each iteration of the loop, so `i` itself
bounds the number of iterations. -/
def translateNumber (lc : localeData) (i : Int) : Except Fault GoString :=
  if lc.Numbers.length = 0 then .ok (sprintf_d i)
  else if i = 0 then index lc.Numbers 0
  else translateLoop lc i.toNat i []

/-! ## directives.go: the field renderers

The composite directives call `Strftime` again; that call is the parameter
`self` of their embedding. -/

/-- The type of `lc.Strftime`, as the composite directives call it. -/
abbrev Scanner := GoString → Time → Except Fault GoString

/-- The locale's abbreviated weekday name. -/
def pera (lc : localeData) (t : Time) : Except Fault GoString :=
  index lc.ShortDays t.Weekday

/-- The locale's full weekday name. -/
def perA (lc : localeData) (t : Time) : Except Fault GoString :=
  index lc.Days t.Weekday

/-- The locale's abbreviated month name. -/
def perb (lc : localeData) (t : Time) : Except Fault GoString :=
  index lc.ShortMonths (t.Month - 1)

/-- The locale's full month name. -/
def perB (lc : localeData) (t : Time) : Except Fault GoString :=
  index lc.Months (t.Month - 1)

/-- The locale's date and time representation: `Strftime` of `lc.DateTime`. -/
def perc (lc : localeData) (self : Scanner) (t : Time) : Except Fault GoString :=
  self lc.DateTime t

/-- The year divided by 100 and truncated to an integer, as a decimal number. -/
def perC (lc : localeData) (t : Time) : Except Fault GoString :=
  translateNumber lc (t.Year.tdiv 100)

/-- The day of the month as a decimal number [01,31]. -/
def perd (lc : localeData) (t : Time) : Except Fault GoString := do
  let n ← translateNumber lc t.Day
  pure (pad lc n 2)

/-- The date formatted as %m/%d/%y. -/
def perD (_lc : localeData) (self : Scanner) (t : Time) : Except Fault GoString :=
  self (str "%m/%d/%y") t

/-- The day of the month as a decimal number [1,31]; a single digit is preceded
by a space. -/
def pere (lc : localeData) (t : Time) : Except Fault GoString :=
  let d := t.Day
  if d < 10 then do
    let n ← translateNumber lc d
    pure (str " " ++ n)
  else translateNumber lc d

/-- The date formatted as %Y-%m-%d. -/
def perF (_lc : localeData) (self : Scanner) (t : Time) : Except Fault GoString :=
  self (str "%Y-%m-%d") t

/-- The last 2 digits of the week-based year as a decimal number [00,99]. -/
def perg (lc : localeData) (t : Time) : Except Fault GoString := do
  let y := t.ISOWeek.1
  let n ← translateNumber lc (y.tmod 100)
  pure (pad lc n 2)

/-- The week-based year as a decimal number. -/
def perG (lc : localeData) (t : Time) : Except Fault GoString := do
  let y := t.ISOWeek.1
  let n ← translateNumber lc y
  pure (pad lc n 2)

/-- The hour (24-hour clock) as a decimal number [00,23]. -/
def perH (lc : localeData) (t : Time) : Except Fault GoString := do
  let n ← translateNumber lc t.Hour
  pure (pad lc n 2)

/-- The hour (12-hour clock) as a decimal number [01,12]. -/
def perI (lc : localeData) (t : Time) : Except Fault GoString := do
  let hr := t.Hour.tmod 12
  let hr := if hr = 0 then 12 else hr
  let n ← translateNumber lc hr
  pure (pad lc n 2)

/-- The day of the year as a decimal number [001,366]. -/
def perj (lc : localeData) (t : Time) : Except Fault GoString := do
  let n ← translateNumber lc t.YearDay
  pure (pad lc n 3)

/-- The month as a decimal number [01,12]. -/
def perm (lc : localeData) (t : Time) : Except Fault GoString := do
  let n ← translateNumber lc t.Month
  pure (pad lc n 2)

/-- The minute as a decimal number [00,59]. -/
def perM (lc : localeData) (t : Time) : Except Fault GoString := do
  let n ← translateNumber lc t.Minute
  pure (pad lc n 2)

/-- A newline. -/
def pern (_lc : localeData) (_t : Time) : Except Fault GoString :=
  .ok (str "\n")

/-- The locale's equivalent of either a.m. or p.m. -/
def perp (lc : localeData) (t : Time) : Except Fault GoString :=
  if t.Hour < 12 then index lc.AMPM 0 else index lc.AMPM 1

/-- The time in a.m. and p.m. notation: `Strftime` of `lc.TimeAMPM`. -/
def perr (lc : localeData) (self : Scanner) (t : Time) : Except Fault GoString :=
  self lc.TimeAMPM t

/-- The time formatted as %H:%M. -/
def perR (_lc : localeData) (self : Scanner) (t : Time) : Except Fault GoString :=
  self (str "%H:%M") t

/-- The second as a decimal number [00,60]. -/
def perS (lc : localeData) (t : Time) : Except Fault GoString := do
  let n ← translateNumber lc t.Second
  pure (pad lc n 2)

/-- A tab. -/
def pert (_lc : localeData) (_t : Time) : Except Fault GoString :=
  .ok (str "\t")

/-- The time formatted as %H:%M:%S. -/
def perT (_lc : localeData) (self : Scanner) (t : Time) : Except Fault GoString :=
  self (str "%H:%M:%S") t

/-- The weekday as a decimal number [1,7], with 1 representing Monday. -/
def peru (lc : localeData) (t : Time) : Except Fault GoString :=
  let d := t.Weekday
  if d = 0 then translateNumber lc 7 else translateNumber lc d

/-- The method `perU`, documented as the Sunday-based week number of the year;
its body takes the week number of `ISOWeek`. -/
def perU (lc : localeData) (t : Time) : Except Fault GoString := do
  let wn := t.ISOWeek.2
  let n ← translateNumber lc wn
  pure (pad lc n 2)

/-- The ISO 8601 week number of the year as a decimal number [01,53]. -/
def perV (lc : localeData) (t : Time) : Except Fault GoString := do
  let wn := t.ISOWeek.2
  let n ← translateNumber lc wn
  pure (pad lc n 2)

/-- The weekday as a decimal number [0,6], with 0 representing Sunday. -/
def perw (lc : localeData) (t : Time) : Except Fault GoString :=
  translateNumber lc t.Weekday

/-- The method `perW`, documented as the Monday-based week number of the year;
its body takes the week number of `ISOWeek`, minus one. -/
def perW (lc : localeData) (t : Time) : Except Fault GoString := do
  let wn := t.ISOWeek.2
  let n ← translateNumber lc (wn - 1)
  pure (pad lc n 2)

/-- The locale's date representation: `Strftime` of `lc.Date`. -/
def perx (lc : localeData) (self : Scanner) (t : Time) : Except Fault GoString :=
  self lc.Date t

/-- The locale's time representation: `Strftime` of `lc.Time`. -/
def perX (lc : localeData) (self : Scanner) (t : Time) : Except Fault GoString :=
  self lc.Time t

/-- The last two digits of the year as a decimal number [00,99]. -/
def pery (lc : localeData) (t : Time) : Except Fault GoString := do
  let n ← translateNumber lc (t.Year.tmod 100)
  pure (pad lc n 2)

/-- The year as a decimal number. -/
def perY (lc : localeData) (t : Time) : Except Fault GoString :=
  translateNumber lc t.Year

/-- The method `perz`, documented as the offset from UTC in the format +hhmm
or -hhmm; its body formats the offset that `Zone()` returns, a number of
seconds, with `%+05d`. -/
def perz (_lc : localeData) (t : Time) : Except Fault GoString :=
  let off := t.Zone.2
  .ok (sprintf_plus05d off)

/-- The timezone name or abbreviation. -/
def perZ (_lc : localeData) (t : Time) : Except Fault GoString :=
  let tz := t.Zone.1
  .ok tz

/-- A percent sign. -/
def perper (_lc : localeData) (_t : Time) : Except Fault GoString :=
  .ok (str "%")

/-! ## parse.go: the dispatcher and the scanner -/

/-- The method `parseDirective`: the renderer of the 2-byte code at the head
of `direc`, or `direc` itself when the code is not a directive. -/
def parseDirective (lc : localeData) (self : Scanner) (direc : GoString) (t : Time) :
    Except Fault GoString :=
  if direc.length < 2 then .ok direc
  else
    let code := direc.take 2
    if code = str "%a" then pera lc t
    else if code = str "%A" then perA lc t
    else if code = str "%b" then perb lc t
    else if code = str "%B" then perB lc t
    else if code = str "%c" then perc lc self t
    else if code = str "%C" then perC lc t
    else if code = str "%d" then perd lc t
    else if code = str "%D" then perD lc self t
    else if code = str "%e" then pere lc t
    else if code = str "%F" then perF lc self t
    else if code = str "%g" then perg lc t
    else if code = str "%G" then perG lc t
    else if code = str "%H" then perH lc t
    else if code = str "%I" then perI lc t
    else if code = str "%j" then perj lc t
    else if code = str "%m" then perm lc t
    else if code = str "%M" then perM lc t
    else if code = str "%n" then pern lc t
    else if code = str "%p" then perp lc t
    else if code = str "%r" then perr lc self t
    else if code = str "%R" then perR lc self t
    else if code = str "%S" then perS lc t
    else if code = str "%t" then pert lc t
    else if code = str "%T" then perT lc self t
    else if code = str "%u" then peru lc t
    else if code = str "%U" then perU lc t
    else if code = str "%V" then perV lc t
    else if code = str "%w" then perw lc t
    else if code = str "%W" then perW lc t
    else if code = str "%x" then perx lc self t
    else if code = str "%X" then perX lc self t
    else if code = str "%y" then pery lc t
    else if code = str "%Y" then perY lc t
    else if code = str "%z" then perz lc t
    else if code = str "%Z" then perZ lc t
    else if code = str "%%" then perper lc t
    else .ok direc

/-- The loop of `Strftime` over what is left of the format, with the buffer
written so far: a '%' with a byte after it is dispatched together with that
byte, every other byte is written as it is. -/
def scanLoop (dispatch : GoString → Except Fault GoString) :
    GoString → GoString → Except Fault GoString
  | [], buf => .ok buf
  | [c], buf => .ok (buf ++ [c])
  | c :: d :: rest, buf =>
    if c = 37 then do
      let out ← dispatch [c, d]
      scanLoop dispatch rest (buf ++ out)
    else scanLoop dispatch (d :: rest) (buf ++ [c])

/-- The body of the method `Strftime`, the recursive call being `self`. -/
def StrftimeBody (lc : localeData) (self : Scanner) (format : GoString) (t : Time) :
    Except Fault GoString :=
  if format.length < 1 then .ok format
  else scanLoop (fun direc => parseDirective lc self direc t) format []

/-- The method `Strftime`. The first argument after the locale is the depth of
nested composite directives that the call stack has room for: a composite
directive met when no room is left exhausts the stack. -/
def Strftime (lc : localeData) : Nat → Scanner
  | 0 => StrftimeBody lc (fun _ _ => .error .stackExhausted)
  | depth + 1 => StrftimeBody lc (Strftime lc depth)

/-! ## Concrete locales and times -/

/-- An English locale without numeral glyphs. -/
def english : localeData where
  ShortDays := ["Sun", "Mon", "Tue", "Wed", "Thu", "Fri", "Sat"].map str
  Days := ["Sunday", "Monday", "Tuesday", "Wednesday", "Thursday", "Friday", "Saturday"].map str
  ShortMonths :=
    ["Jan", "Feb", "Mar", "Apr", "May", "Jun", "Jul", "Aug", "Sep", "Oct", "Nov", "Dec"].map str
  Months :=
    ["January", "February", "March", "April", "May", "June", "July", "August", "September",
      "October", "November", "December"].map str
  AMPM := [str "AM", str "PM"]
  Numbers := []
  DateTime := str "%a %b %e %H:%M:%S %Y"
  Date := str "%m/%d/%Y"
  Time := str "%H:%M:%S"
  TimeAMPM := str "%I:%M:%S %p"

/-- The Eastern Arabic numerals U+0660 to U+0669, in UTF-8. -/
def easternArabic : List GoString :=
  [[0xD9, 0xA0], [0xD9, 0xA1], [0xD9, 0xA2], [0xD9, 0xA3], [0xD9, 0xA4],
   [0xD9, 0xA5], [0xD9, 0xA6], [0xD9, 0xA7], [0xD9, 0xA8], [0xD9, 0xA9]]

/-- A locale with the Eastern Arabic numerals. -/
def arabic : localeData := { english with Numbers := easternArabic }

/-- The smallest value of the 64-bit Go `int`, -2^63. -/
def minInt : Int := -9223372036854775808

/-- The largest value of the 64-bit Go `int`, 2^63 - 1. -/
def maxInt : Int := 9223372036854775807

/-- The number of values of the 64-bit Go `int` that are not negative, 2^63:
a Go string has fewer bytes. -/
def maxLen : Nat := 9223372036854775808

/-- A locale whose zero glyph is the single byte 0xC3, which is not well-formed
UTF-8: the first byte of a 2-byte sequence, without its second byte. -/
def truncatedZero : localeData :=
  { english with Numbers := [0xC3] :: easternArabic.tail }

/-- The instant 2006-01-02 15:04:05 UTC, a Monday. -/
def refTime : Time where
  Year := 2006
  Month := 1
  Day := 2
  Hour := 15
  Minute := 4
  Second := 5
  Weekday := 1
  YearDay := 2
  Zone := (str "UTC", 0)

/-- The fifth day of January 2006, a Thursday, at noon UTC. -/
def fifthOfJanuary : Time where
  Year := 2006
  Month := 1
  Day := 5
  Hour := 12
  Minute := 0
  Second := 0
  Weekday := 4
  YearDay := 5
  Zone := (str "UTC", 0)

/-- Noon of 2010-01-01, a Friday, in a zone 4 hours 30 minutes behind UTC:
`Zone()` returns the offset in seconds, -(4 * 3600 + 30 * 60) = -16200. -/
def caracasNoon : Time where
  Year := 2010
  Month := 1
  Day := 1
  Hour := 12
  Minute := 0
  Second := 0
  Weekday := 5
  YearDay := 1
  Zone := (str "VET", -16200)

/-- The bytes that are the second character of a directive. -/
def directiveLetters : GoString := str "aAbBcCdDeFgGHIjmMnprRStTuUVwWxXyYzZ%"

/-- The numeral of `n` as the specification words it: the glyphs `table[d]` of
the decimal digits `d` of `n`, most significant digit first, one after the
other; a single `table[0]` for 0. -/
def numeral (table : List GoString) (n : Nat) : GoString :=
  if n = 0 then table.getD 0 []
  else ((Nat.digits 10 n).reverse.map (fun d => table.getD d [])).flatten

/-- The plain ASCII decimal representation of `n`, from its decimal digits. -/
def asciiDecimal (n : Nat) : GoString :=
  if n = 0 then [48] else (Nat.digits 10 n).reverse.map (fun d => 48 + d)

/-- The glyph of the digit `d` in a locale: `Numbers[d]`, or the ASCII digit
when the locale has no numeral table. -/
def digitGlyph (lc : localeData) (d : Nat) : GoString :=
  match lc.Numbers with
  | [] => [48 + d]
  | _ :: _ => lc.Numbers.getD d []

/-- The glyph of the tens digit of `n`, then the glyph of its units digit. -/
def twoGlyphs (lc : localeData) (n : Nat) : GoString :=
  digitGlyph lc (n / 10 % 10) ++ digitGlyph lc (n % 10)

/-- The glyphs of the hundreds, tens and units digits of `n`. -/
def threeGlyphs (lc : localeData) (n : Nat) : GoString :=
  digitGlyph lc (n / 100 % 10) ++ twoGlyphs lc n

/-- The numeral table of a locale is empty or holds 10 glyphs of one character
each, a character being the well-formed UTF-8 encoding of one code point. -/
def oneCharNumbers (lc : localeData) : Prop :=
  lc.Numbers = [] ∨ (lc.Numbers.length = 10 ∧ ∀ g ∈ lc.Numbers, isRune g = true)

/-- The first day of 2006, a Sunday, at noon UTC. -/
def newYear2006 : Time where
  Year := 2006
  Month := 1
  Day := 1
  Hour := 12
  Minute := 0
  Second := 0
  Weekday := 0
  YearDay := 1
  Zone := (str "UTC", 0)

/-- The first day of the year 999, a Tuesday in the proleptic Gregorian
calendar, at noon UTC. -/
def newYear999 : Time where
  Year := 999
  Month := 1
  Day := 1
  Hour := 12
  Minute := 0
  Second := 0
  Weekday := 2
  YearDay := 1
  Zone := (str "UTC", 0)

/-- The week number of the year with Sunday as the first day of the week, as
the specification words it: the first Sunday of January starts week 1 and the
days before it are in week 0. `YearDay` is 1-based, so the 0-based day of the
year is `YearDay - 1`. -/
def sundayWeek (t : Time) : Int :=
  (t.YearDay - 1 + 7 - t.Weekday) / 7

/-- The week number of the year with Monday as the first day of the week, as
the specification words it: the first Monday of January starts week 1 and the
days before it are in week 0. -/
def mondayWeek (t : Time) : Int :=
  (t.YearDay - 1 + 7 - (t.Weekday + 6) % 7) / 7

/-- The hour of the 12-hour clock for the hour `h` of the 24-hour clock: 12
when `h` is a multiple of 12, the remainder of `h` by 12 otherwise. -/
def twelveHour (h : Nat) : Nat :=
  if h % 12 = 0 then 12 else h % 12

/-- The fifth year before the year 0, on a locale-independent instant. -/
def yearMinusFive : Time := { newYear2006 with Year := -5 }

/-- The scanner that the composite directives call from `Strftime lc depth`:
`Strftime` with one level of stack less, or the exhausted stack. -/
def nested (lc : localeData) : Nat → Scanner
  | 0 => fun _ _ => .error .stackExhausted
  | depth + 1 => Strftime lc depth

/-- Two ASCII digits: the tens digit and the units digit of `n`. -/
def twoDigits (n : Nat) : GoString :=
  [48 + n / 10 % 10, 48 + n % 10]

/-- The instant 2006-01-02 15:04:05 UTC rendered with the template
"%a %b %d %Y %H:%M:%S" in English. -/
def refRendering : GoString := str "Mon Jan 02 2006 15:04:05"

/-- The second bytes of the directives that the scanner dispatches in a
format, in the order of the scan. -/
def directives : GoString → List Nat
  | [] => []
  | [_] => []
  | c :: d :: rest => if c = 37 then d :: directives rest else directives (d :: rest)

/-- The template that the locale gives to a composite directive: `DateTime`
for c, `TimeAMPM` for r, `Date` for x and `Time` for X. -/
def localeTemplate (lc : localeData) (d : Nat) : Option GoString :=
  if d = 99 then some lc.DateTime
  else if d = 114 then some lc.TimeAMPM
  else if d = 120 then some lc.Date
  else if d = 88 then some lc.Time
  else none

/-- The constant template of a fixed composite directive: D, F, R and T. -/
def fixedTemplate (d : Nat) : Option GoString :=
  if d = 68 then some (str "%m/%d/%y")
  else if d = 70 then some (str "%Y-%m-%d")
  else if d = 82 then some (str "%H:%M")
  else if d = 84 then some (str "%H:%M:%S")
  else none

/-- The template on which a composite directive calls `Strftime`; `none` for
every other byte. -/
def subTemplate (lc : localeData) (d : Nat) : Option GoString :=
  match localeTemplate lc d with
  | some s => some s
  | none => fixedTemplate d

/-- The format `s` needs at most `k` nested calls of `Strftime`: every
composite directive that the scanner dispatches in `s` has a template that
needs at most `k - 1`. -/
def fits (lc : localeData) : Nat → GoString → Bool
  | 0, s => (directives s).all (fun d => (subTemplate lc d).isNone)
  | k + 1, s =>
    (directives s).all (fun d =>
      match subTemplate lc d with
      | none => true
      | some sub => fits lc k sub)

/-- The composite template of the locale for directive `a` contains the
directive `b`. -/
def templateUses (lc : localeData) (a b : Nat) : Prop :=
  ∃ s, localeTemplate lc a = some s ∧ b ∈ directives s

/-- The composite templates of the locale do not recurse into themselves:
no composite directive is reached from its own template, directly or through
the templates of other composite directives. -/
def acyclicTemplates (lc : localeData) : Prop :=
  ∀ a : Nat, ¬ Relation.TransGen (templateUses lc) a a

/-- The length invariant of the locale record: 7 names of days, 12 names of
months, 2 a.m./p.m. labels and 0 or 10 numeral glyphs. -/
def lengthInvariant (lc : localeData) : Prop :=
  lc.ShortDays.length = 7 ∧ lc.Days.length = 7 ∧ lc.ShortMonths.length = 12 ∧
    lc.Months.length = 12 ∧ lc.AMPM.length = 2 ∧
    (lc.Numbers.length = 0 ∨ lc.Numbers.length = 10)

/-- A locale whose composite templates are nested in one another without a
cycle: `DateTime` calls `Date` and `Time`, `Time` calls `TimeAMPM`, `Date` calls
the fixed composite D. -/
def nestedTemplates : localeData :=
  { english with
    DateTime := str "%x %X"
    Date := str "%D"
    Time := str "%r"
    TimeAMPM := str "%I:%M:%S %p" }

/-- A locale whose template `DateTime` contains %c, the directive that expands
`DateTime`. -/
def selfReferring : localeData :=
  { english with DateTime := str "%a %c" }

/-- A continuation byte of UTF-8: a byte from 0x80 to 0xBF. -/
def isContinuation (b : Nat) : Bool :=
  decide (0x80 ≤ b ∧ b ≤ 0xBF)

/-- The number of bytes of a string that are not continuation bytes. -/
def leadBytes (x : GoString) : Nat :=
  x.countP (fun b => !isContinuation b)

/-- The index of the first glyph of a table with which the string `s`
begins. -/
def matchGlyph : List GoString → GoString → Option Nat
  | [], _ => none
  | g :: tl, s => if s.take g.length = g then some 0 else (matchGlyph tl s).map (fun i => i + 1)

/-- The string `s` cut into glyphs of a table from the left, each glyph mapped
back to its index in the table; `none` when `s` is not made of glyphs. The
first argument bounds the number of glyphs. -/
def glyphIndices (table : List GoString) : Nat → GoString → Option (List Nat)
  | 0, s => if s = [] then some [] else none
  | fuel + 1, s =>
    if s = [] then some []
    else
      match matchGlyph table s with
      | none => none
      | some i =>
        (glyphIndices table fuel (s.drop (table.getD i []).length)).map (fun is => i :: is)

/-- No glyph of the table is the beginning of another glyph of the table: a
string made of glyphs is cut into glyphs in one way only. -/
def cutsUniquely (table : List GoString) : Prop :=
  ∀ i j : Nat, i < table.length → j < table.length →
    (table.getD j []).take (table.getD i []).length = table.getD i [] → i = j

/-- The decimal digits of `n`, most significant digit first; the digit 0 for
`n = 0`. -/
def decimalDigits (n : Nat) : List Nat :=
  if n = 0 then [0] else (Nat.digits 10 n).reverse

/-- A table of 10 glyphs in which the glyph of 0 is also the glyph of 1. -/
def repeatedGlyph : localeData :=
  { english with
    Numbers := ["a", "a", "c", "d", "e", "f", "g", "h", "i", "j"].map str }

/-- A table of 10 glyphs that differ from one another, in which the glyph of 0
is the beginning of the glyph of 1. -/
def overlappingGlyphs : localeData :=
  { english with
    Numbers := ["a", "aa", "c", "d", "e", "f", "g", "h", "i", "j"].map str }

/-! ## The scanner -/

theorem scanLoop_literal (f : GoString → Except Fault GoString) (c : Nat) (tl buf : GoString)
    (hc : c ≠ 37) : scanLoop f (c :: tl) buf = scanLoop f tl (buf ++ [c]) := by
  cases tl with
  | nil => simp [scanLoop]
  | cons d rest => simp [scanLoop, hc]

theorem scanLoop_directive (f : GoString → Except Fault GoString) (d : Nat) (rest buf : GoString) :
    scanLoop f (37 :: d :: rest) buf =
      (f [37, d]).bind (fun out => scanLoop f rest (buf ++ out)) := by
  simp [scanLoop, bind]

theorem scanLoop_plain (f : GoString → Except Fault GoString) (s buf : GoString)
    (hs : 37 ∉ s) : scanLoop f s buf = .ok (buf ++ s) := by
  induction s generalizing buf with
  | nil => simp [scanLoop]
  | cons c tl ih =>
    have hc : c ≠ 37 := fun h => hs (by simp [h])
    have htl : 37 ∉ tl := fun h => hs (by simp [h])
    rw [scanLoop_literal f c tl buf hc, ih _ htl]
    simp

theorem scanLoop_trailing (f : GoString → Except Fault GoString) (s buf : GoString)
    (hs : 37 ∉ s) : scanLoop f (s ++ [37]) buf = .ok (buf ++ s ++ [37]) := by
  induction s generalizing buf with
  | nil => simp [scanLoop]
  | cons c tl ih =>
    have hc : c ≠ 37 := fun h => hs (by simp [h])
    have htl : 37 ∉ tl := fun h => hs (by simp [h])
    rw [List.cons_append, scanLoop_literal f c _ buf hc, ih _ htl]
    simp

theorem Strftime_eq (lc : localeData) (depth : Nat) (format : GoString) (t : Time) :
    ∃ self : Scanner, Strftime lc depth format t =
      if format.length < 1 then .ok format
      else scanLoop (fun direc => parseDirective lc self direc t) format [] := by
  cases depth with
  | zero => exact ⟨_, rfl⟩
  | succ n => exact ⟨_, rfl⟩

/-- C1: a template without '%' is returned unchanged, whatever the time, the
locale and the depth of stack available. -/
theorem Strftime_no_percent (lc : localeData) (depth : Nat) (template : GoString) (t : Time)
    (h : 37 ∉ template) : Strftime lc depth template t = .ok template := by
  obtain ⟨self, hS⟩ := Strftime_eq lc depth template t
  rw [hS, scanLoop_plain _ _ _ h]
  simp

theorem Strftime_no_percent_witness :
    37 ∉ str "2006-01-02, lundi" ∧
      Strftime arabic 0 (str "2006-01-02, lundi") refTime = .ok (str "2006-01-02, lundi") :=
  ⟨by decide, Strftime_no_percent arabic 0 (str "2006-01-02, lundi") refTime (by decide)⟩

/-! ## The dispatcher -/

theorem parseDirective_unknown (lc : localeData) (self : Scanner) (t : Time) (c : Nat)
    (rest : GoString) (h : c ∉ directiveLetters) :
    parseDirective lc self (37 :: c :: rest) t = .ok (37 :: c :: rest) := by
  simp [directiveLetters, str] at h
  simp [parseDirective, str, h]

theorem Strftime_single (lc : localeData) (depth : Nat) (c : Nat) (t : Time) :
    ∃ self : Scanner, (depth = 0 → self = fun _ _ => .error .stackExhausted) ∧
      (∀ n, depth = n + 1 → self = Strftime lc n) ∧
      Strftime lc depth [37, c] t = parseDirective lc self [37, c] t := by
  cases depth with
  | zero =>
    refine ⟨_, fun _ => rfl, fun n hn => by omega, ?_⟩
    simp only [Strftime, StrftimeBody, scanLoop]
    cases parseDirective lc (fun _ _ => .error .stackExhausted) [37, c] t <;>
      simp [bind, Except.bind]
  | succ n =>
    refine ⟨Strftime lc n, fun h => by omega, fun m hm => by
      have hnm : n = m := by omega
      rw [hnm], ?_⟩
    simp only [Strftime, StrftimeBody, scanLoop]
    cases parseDirective lc (Strftime lc n) [37, c] t <;> simp [bind, Except.bind]

/-- C2: a code "%c" whose second byte is not a directive letter is returned
unchanged by the dispatcher (also when more bytes follow the code in its
argument), and the scanner renders such a code verbatim (also when bytes
other than '%' follow it, such as the rest of a multi-byte character). -/
theorem unknown_directive_verbatim (lc : localeData) (t : Time) (c : Nat)
    (h : c ∉ directiveLetters) :
    (∀ self : Scanner, parseDirective lc self [37, c] t = .ok [37, c]) ∧
      (∀ (self : Scanner) (rest : GoString),
        parseDirective lc self (37 :: c :: rest) t = .ok (37 :: c :: rest)) ∧
      (∀ depth : Nat, Strftime lc depth [37, c] t = .ok [37, c]) ∧
      (∀ (depth : Nat) (rest : GoString), 37 ∉ rest →
        Strftime lc depth (37 :: c :: rest) t = .ok (37 :: c :: rest)) := by
  refine ⟨fun self => parseDirective_unknown lc self t c [] h,
    fun self rest => parseDirective_unknown lc self t c rest h, fun depth => ?_,
    fun depth rest hrest => ?_⟩
  · obtain ⟨self, -, -, hS⟩ := Strftime_single lc depth c t
    rw [hS, parseDirective_unknown lc self t c [] h]
  · obtain ⟨self, hS⟩ := Strftime_eq lc depth (37 :: c :: rest) t
    rw [hS, scanLoop_directive, parseDirective_unknown lc self t c [] h]
    simp [Except.bind, scanLoop_plain _ _ _ hrest]

theorem unknown_directive_verbatim_witness :
    113 ∉ directiveLetters ∧ Strftime english 0 (str "%q") refTime = .ok (str "%q") :=
  ⟨by decide, (unknown_directive_verbatim english refTime 113 (by decide)).2.2.1 0⟩

/-- C3: a '%' that ends the template is written as it is: a template without
'%' followed by a single '%' is returned unchanged. -/
theorem Strftime_trailing_percent (lc : localeData) (depth : Nat) (s : GoString) (t : Time)
    (h : 37 ∉ s) :
    Strftime lc depth (s ++ str "%") t = .ok (s ++ str "%") ∧
      Strftime lc depth (str "%") t = .ok (str "%") := by
  have key : ∀ s : GoString, 37 ∉ s → Strftime lc depth (s ++ [37]) t = .ok (s ++ [37]) := by
    intro s hs
    obtain ⟨self, hS⟩ := Strftime_eq lc depth (s ++ [37]) t
    rw [hS, scanLoop_trailing _ _ _ hs]
    simp
  exact ⟨key s h, key [] (by simp)⟩

theorem Strftime_trailing_percent_witness :
    37 ∉ str "100" ∧ Strftime english 0 (str "100" ++ str "%") refTime = .ok (str "100" ++ str "%") :=
  ⟨by decide, (Strftime_trailing_percent english 0 (str "100") refTime (by decide)).1⟩

/-- C4: the literal directives: "%%" renders "%", "%n" a newline and "%t" a
tab, for every time, locale and depth of stack available. -/
theorem Strftime_literals (lc : localeData) (depth : Nat) (t : Time) :
    Strftime lc depth (str "%%") t = .ok (str "%") ∧
      Strftime lc depth (str "%n") t = .ok (str "\n") ∧
      Strftime lc depth (str "%t") t = .ok (str "\t") := by
  refine ⟨?_, ?_, ?_⟩
  · obtain ⟨self, -, -, hS⟩ := Strftime_single lc depth 37 t
    simpa [str, parseDirective, perper] using hS
  · obtain ⟨self, -, -, hS⟩ := Strftime_single lc depth 110 t
    simpa [str, parseDirective, pern] using hS
  · obtain ⟨self, -, -, hS⟩ := Strftime_single lc depth 116 t
    simpa [str, parseDirective, pert] using hS

/-! ## The fixed composite directives -/

theorem Strftime_body (lc : localeData) (depth : Nat) :
    ∃ self : Scanner, Strftime lc depth = StrftimeBody lc self := by
  cases depth with
  | zero => exact ⟨_, rfl⟩
  | succ n => exact ⟨_, rfl⟩

theorem Strftime_composite (lc : localeData) (n : Nat) (c : Nat) (t : Time) :
    Strftime lc (n + 1) [37, c] t = parseDirective lc (Strftime lc n) [37, c] t := by
  obtain ⟨self, -, h, hS⟩ := Strftime_single lc (n + 1) c t
  rw [hS, h n rfl]

/-- C5: the fixed composite directives are the expansion of their constant
sub-template: with room on the stack for the nested call, "%F" renders as
"%Y-%m-%d", "%R" as "%H:%M", "%T" as "%H:%M:%S" and "%D" as "%m/%d/%y", the
sub-template rendering the same at every depth. -/
theorem fixed_composites (lc : localeData) (t : Time) (n m : Nat) :
    Strftime lc (n + 1) (str "%F") t = Strftime lc m (str "%Y-%m-%d") t ∧
      Strftime lc (n + 1) (str "%R") t = Strftime lc m (str "%H:%M") t ∧
      Strftime lc (n + 1) (str "%T") t = Strftime lc m (str "%H:%M:%S") t ∧
      Strftime lc (n + 1) (str "%D") t = Strftime lc m (str "%m/%d/%y") t := by
  obtain ⟨self₁, h₁⟩ := Strftime_body lc n
  obtain ⟨self₂, h₂⟩ := Strftime_body lc m
  have hF := Strftime_composite lc n 70 t
  have hR := Strftime_composite lc n 82 t
  have hT := Strftime_composite lc n 84 t
  have hD := Strftime_composite lc n 68 t
  refine ⟨?_, ?_, ?_, ?_⟩
  · have e : str "%F" = [37, 70] := by decide
    rw [e, hF, h₁, h₂]
    simp [parseDirective, perF, StrftimeBody, scanLoop, str]
  · have e : str "%R" = [37, 82] := by decide
    rw [e, hR, h₁, h₂]
    simp [parseDirective, perR, StrftimeBody, scanLoop, str]
  · have e : str "%T" = [37, 84] := by decide
    rw [e, hT, h₁, h₂]
    simp [parseDirective, perT, StrftimeBody, scanLoop, str]
  · have e : str "%D" = [37, 68] := by decide
    rw [e, hD, h₁, h₂]
    simp [parseDirective, perD, StrftimeBody, scanLoop, str]

theorem fixed_composites_witness :
    Strftime english 1 (str "%F") refTime = .ok (str "2006-01-02") ∧
      Strftime english 1 (str "%D") refTime = .ok (str "01/02/06") ∧
      Strftime arabic 1 (str "%R") refTime =
        .ok [0xD9, 0xA1, 0xD9, 0xA5, 58, 0xD9, 0xA0, 0xD9, 0xA4] := by
  have h₁ := fixed_composites english refTime 0 0
  have h₂ := fixed_composites arabic refTime 0 0
  rw [h₁.1, h₁.2.2.2, h₂.2.1]
  decide

/-! ## The numeral translator -/

theorem index_ok (xs : List GoString) (d : Nat) (h : d < xs.length) :
    index xs (d : Int) = .ok (xs.getD d []) := by
  have h0 : ¬ ((d : Int) < 0) := by omega
  simp [index, h0, List.getD, List.getElem?_eq_getElem h]

theorem translateLoop_digits (lc : localeData) (hlen : lc.Numbers.length = 10) :
    ∀ (fuel n : Nat) (s : GoString), n ≤ fuel →
      translateLoop lc fuel (n : Int) s =
        .ok (((Nat.digits 10 n).reverse.map (fun d => lc.Numbers.getD d [])).flatten ++ s) := by
  intro fuel
  induction fuel with
  | zero =>
    intro n s hn
    have : n = 0 := by omega
    subst this
    simp [translateLoop]
  | succ fuel ih =>
    intro n s hn
    by_cases h0 : n = 0
    · subst h0
      simp [translateLoop]
    · have hpos : (n : Int) > 0 := by omega
      have hmod : (n : Int).tmod 10 = ((n % 10 : Nat) : Int) := by
        rw [Int.tmod_eq_emod (by omega) (by omega)]
        omega
      have hdiv : (n : Int).tdiv 10 = ((n / 10 : Nat) : Int) := by
        rw [Int.tdiv_eq_ediv (by omega) (by omega)]
        omega
      have hidx := index_ok lc.Numbers (n % 10) (by omega)
      have hrec := ih (n / 10) (lc.Numbers.getD (n % 10) [] ++ s) (by omega)
      have hdig : Nat.digits 10 n = (n % 10) :: Nat.digits 10 (n / 10) :=
        Nat.digits_def' (by omega) (by omega)
      rw [translateLoop, if_pos hpos, hmod, hidx, hdiv]
      simp only [bind, Except.bind]
      rw [hrec, hdig]
      simp

theorem formatBits_digits :
    ∀ (fuel n : Nat) (acc : GoString), n ≤ fuel →
      formatBits fuel n acc = (Nat.digits 10 n).reverse.map (fun d => 48 + d) ++ acc := by
  intro fuel
  induction fuel with
  | zero =>
    intro n acc hn
    have : n = 0 := by omega
    subst this
    simp [formatBits]
  | succ fuel ih =>
    intro n acc hn
    by_cases h0 : n = 0
    · subst h0
      simp [formatBits]
    · have hdig : Nat.digits 10 n = (n % 10) :: Nat.digits 10 (n / 10) :=
        Nat.digits_def' (by omega) (by omega)
      have hrec := ih (n / 10) ((48 + n % 10) :: acc) (by omega)
      rw [formatBits, if_neg h0, hrec, hdig]
      simp

theorem FormatUint_eq (n : Nat) : FormatUint n = asciiDecimal n := by
  unfold FormatUint asciiDecimal
  by_cases h0 : n = 0
  · simp [h0, str]
  · simp [h0, formatBits_digits n n [] (le_refl n)]

theorem translateNumber_nat (lc : localeData) (n : Nat) (hlen : lc.Numbers.length = 10) :
    translateNumber lc (n : Int) = .ok (numeral lc.Numbers n) := by
  unfold translateNumber numeral
  have hne : ¬ lc.Numbers.length = 0 := by omega
  by_cases h0 : n = 0
  · subst h0
    have := index_ok lc.Numbers 0 (by omega)
    simpa [hne] using this
  · have hz : ¬ (n : Int) = 0 := by omega
    rw [if_neg hne, if_neg hz, if_neg h0, Int.toNat_ofNat,
      translateLoop_digits lc hlen n n [] (le_refl n)]
    simp

theorem translateNumber_ascii (lc : localeData) (n : Nat) (hnum : lc.Numbers = []) :
    translateNumber lc (n : Int) = .ok (asciiDecimal n) := by
  have h0 : ¬ ((n : Int) < 0) := by omega
  simp [translateNumber, hnum, sprintf_d, h0, FormatUint_eq]

/-! ## Counting runes -/

theorem first_size (c size lo hi : Nat) (h : first c = some (size, lo, hi)) :
    size = 2 ∨ size = 3 ∨ size = 4 := by
  unfold first at h
  split_ifs at h <;> simp at h <;> omega

theorem decodeStep_cons (c : Nat) (rest : GoString) :
    decodeStep (c :: rest) =
      if c < 0x80 then (1, true)
      else
        match first c with
        | none => (1, false)
        | some (size, lo, hi) =>
          if rest.length + 1 < size then (1, false)
          else if rest.getD 0 0 < lo ∨ hi < rest.getD 0 0 then (1, false)
          else if size = 2 then (2, true)
          else if rest.getD 1 0 < 0x80 ∨ 0xBF < rest.getD 1 0 then (1, false)
          else if size = 3 then (3, true)
          else if rest.getD 2 0 < 0x80 ∨ 0xBF < rest.getD 2 0 then (1, false)
          else (4, true) := rfl

theorem decodeStep_bounds (c : Nat) (rest : GoString) :
    1 ≤ (decodeStep (c :: rest)).1 ∧ (decodeStep (c :: rest)).1 ≤ rest.length + 1 := by
  rw [decodeStep_cons]
  by_cases hc : c < 0x80
  · simp [hc]
  · rw [if_neg hc]
    rcases hf : first c with _ | ⟨size, lo, hi⟩
    · simp
    · have hsz := first_size c size lo hi hf
      simp only
      split_ifs <;> simp <;> omega

theorem decodeStep_append (g s : GoString) (h : (decodeStep g).2 = true) :
    decodeStep (g ++ s) = decodeStep g := by
  cases g with
  | nil => simp [decodeStep] at h
  | cons c rest =>
    rw [List.cons_append, decodeStep_cons c (rest ++ s), decodeStep_cons c rest]
    rw [decodeStep_cons] at h
    by_cases hc : c < 0x80
    · simp [hc]
    · rw [if_neg hc] at h
      rw [if_neg hc, if_neg hc]
      rcases hf : first c with _ | ⟨size, lo, hi⟩
      · rw [hf] at h
      · rw [hf] at h
        have hsz := first_size c size lo hi hf
        simp only at h ⊢
        by_cases hshort : rest.length + 1 < size
        · simp [hshort] at h
        · have hlen : ¬ ((rest ++ s).length + 1 < size) := by
            rw [List.length_append]
            omega
          rw [if_neg hlen, if_neg hshort]
          have e0 : (rest ++ s).getD 0 0 = rest.getD 0 0 :=
            List.getD_append rest s 0 0 (by omega)
          rw [e0]
          rcases hsz with h2 | h3 | h4
          · simp [h2]
          · have e1 : (rest ++ s).getD 1 0 = rest.getD 1 0 :=
              List.getD_append rest s 0 1 (by omega)
            rw [e1]
            simp [h3]
          · have e1 : (rest ++ s).getD 1 0 = rest.getD 1 0 :=
              List.getD_append rest s 0 1 (by omega)
            have e2 : (rest ++ s).getD 2 0 = rest.getD 2 0 :=
              List.getD_append rest s 0 2 (by omega)
            rw [e1, e2]

theorem runeCountLoop_fuel :
    ∀ (f₁ f₂ : Nat) (s : GoString), s.length ≤ f₁ → s.length ≤ f₂ →
      runeCountLoop f₁ s = runeCountLoop f₂ s := by
  intro f₁
  induction f₁ with
  | zero =>
    intro f₂ s h₁ _
    have hs : s = [] := List.length_eq_zero.mp (by omega)
    subst hs
    cases f₂ <;> simp [runeCountLoop]
  | succ f₁ ih =>
    intro f₂ s h₁ h₂
    cases s with
    | nil => cases f₂ <;> simp [runeCountLoop]
    | cons c rest =>
      cases f₂ with
      | zero => simp at h₂
      | succ f₂ =>
        have hb := decodeStep_bounds c rest
        simp only [runeCountLoop]
        congr 1
        apply ih
        · simp only [List.length_drop, List.length_cons] at *
          omega
        · simp only [List.length_drop, List.length_cons] at *
          omega

theorem RuneCountInString_nil : RuneCountInString [] = 0 := by
  simp [RuneCountInString, runeCountLoop]

theorem RuneCountInString_cons (c : Nat) (rest : GoString) :
    RuneCountInString (c :: rest) =
      1 + RuneCountInString ((c :: rest).drop (decodeStep (c :: rest)).1) := by
  have hb := decodeStep_bounds c rest
  simp only [RuneCountInString, List.length_cons, runeCountLoop]
  congr 1
  apply runeCountLoop_fuel
  · simp only [List.length_drop, List.length_cons]
    omega
  · exact le_refl _

theorem validLoop_fuel :
    ∀ (f₁ f₂ : Nat) (s : GoString), s.length ≤ f₁ → s.length ≤ f₂ →
      validLoop f₁ s = validLoop f₂ s := by
  intro f₁
  induction f₁ with
  | zero =>
    intro f₂ s h₁ _
    have hs : s = [] := List.length_eq_zero.mp (by omega)
    subst hs
    cases f₂ <;> simp [validLoop]
  | succ f₁ ih =>
    intro f₂ s h₁ h₂
    cases s with
    | nil => cases f₂ <;> simp [validLoop]
    | cons c rest =>
      cases f₂ with
      | zero => simp at h₂
      | succ f₂ =>
        have hb := decodeStep_bounds c rest
        simp only [validLoop]
        congr 1
        apply ih
        · simp only [List.length_drop, List.length_cons] at *
          omega
        · simp only [List.length_drop, List.length_cons] at *
          omega

theorem ValidString_cons (c : Nat) (rest : GoString) :
    ValidString (c :: rest) =
      ((decodeStep (c :: rest)).2 &&
        ValidString ((c :: rest).drop (decodeStep (c :: rest)).1)) := by
  have hb := decodeStep_bounds c rest
  simp only [ValidString, List.length_cons, validLoop]
  congr 1
  apply validLoop_fuel
  · simp only [List.length_drop, List.length_cons]
    omega
  · exact le_refl _

theorem RuneCountInString_append :
    ∀ (n : Nat) (g : GoString), g.length ≤ n → ValidString g = true →
      ∀ s : GoString, RuneCountInString (g ++ s) = RuneCountInString g + RuneCountInString s := by
  intro n
  induction n with
  | zero =>
    intro g hg _ s
    have : g = [] := List.length_eq_zero.mp (by omega)
    subst this
    simp [RuneCountInString_nil]
  | succ n ih =>
    intro g hg hv s
    cases g with
    | nil => simp [RuneCountInString_nil]
    | cons c rest =>
      have hb := decodeStep_bounds c rest
      rw [ValidString_cons, Bool.and_eq_true] at hv
      have happ := decodeStep_append (c :: rest) s hv.1
      have hrec := ih ((c :: rest).drop (decodeStep (c :: rest)).1)
        (by simp only [List.length_drop, List.length_cons] at *; omega) hv.2 s
      rw [RuneCountInString_cons c rest]
      rw [List.cons_append] at happ ⊢
      rw [RuneCountInString_cons c (rest ++ s), happ, ← List.cons_append,
        List.drop_append_of_le_length (by simp only [List.length_cons]; omega), hrec]
      omega

theorem RuneCountInString_rune (g s : GoString) (hg : isRune g = true) :
    RuneCountInString (g ++ s) = 1 + RuneCountInString s := by
  cases g with
  | nil => simp [isRune, decodeStep] at hg
  | cons c rest =>
    simp only [isRune, Bool.and_eq_true, beq_iff_eq] at hg
    have happ := decodeStep_append (c :: rest) s hg.1
    rw [List.cons_append] at happ ⊢
    rw [RuneCountInString_cons c (rest ++ s), happ, hg.2, ← List.cons_append,
      List.drop_left]

theorem RuneCountInString_eq_zero (s : GoString) (h : RuneCountInString s = 0) : s = [] := by
  cases s with
  | nil => rfl
  | cons c rest =>
    rw [RuneCountInString_cons] at h
    omega

/-! ## The padding engine -/

theorem padLoop_eq (g : GoString) :
    ∀ (k : Nat) (s : GoString), padLoop g k s = (List.replicate k g).flatten ++ s := by
  intro k
  induction k with
  | zero => intro s; simp [padLoop]
  | succ k ih =>
    intro s
    rw [padLoop, ih, List.replicate_succ']
    simp

theorem RuneCountInString_padLoop (g : GoString) (hg : ValidString g = true) :
    ∀ (k : Nat) (s : GoString),
      RuneCountInString (padLoop g k s) = k * RuneCountInString g + RuneCountInString s := by
  intro k
  induction k with
  | zero => intro s; simp [padLoop]
  | succ k ih =>
    intro s
    rw [padLoop, ih, RuneCountInString_append g.length g (le_refl _) hg s]
    ring

theorem padLoop_length (g : GoString) :
    ∀ (k : Nat) (s : GoString), (padLoop g k s).length = k * g.length + s.length := by
  intro k
  induction k with
  | zero => intro s; simp [padLoop]
  | succ k ih =>
    intro s
    rw [padLoop, ih, List.length_append]
    ring

theorem wrapInt_of_range (x : Int) (h₁ : -9223372036854775808 ≤ x)
    (h₂ : x < 9223372036854775808) : wrapInt x = x := by
  unfold wrapInt
  omega

theorem pad_of_le (lc : localeData) (s : GoString) (w : Int)
    (h : w ≤ (RuneCountInString s : Int))
    (hb : -9223372036854775808 ≤ w - (RuneCountInString s : Int)) : pad lc s w = s := by
  unfold pad
  by_cases he : (RuneCountInString s : Int) = w
  · simp [he]
  · have hneg : wrapInt (w - (RuneCountInString s : Int)) < 0 := by
      rw [wrapInt_of_range _ hb (by omega)]
      omega
    simp [he, hneg]

theorem pad_of_lt (lc : localeData) (s : GoString) (w : Int)
    (h : (RuneCountInString s : Int) < w)
    (hb : w - (RuneCountInString s : Int) < 9223372036854775808) :
    pad lc s w = padLoop (paddingCh lc) (w - (RuneCountInString s : Int)).toNat s := by
  unfold pad
  have he : ¬ (RuneCountInString s : Int) = w := by omega
  have hneg : ¬ (wrapInt (w - (RuneCountInString s : Int)) < 0) := by
    rw [wrapInt_of_range _ (by omega) hb]
    omega
  rw [if_neg he]
  simp only [if_neg hneg]
  rw [wrapInt_of_range _ (by omega) hb]

/-! ## Counting runes across a boundary -/

theorem first_range (c size lo hi : Nat) (h : first c = some (size, lo, hi)) :
    0x80 ≤ lo ∧ hi ≤ 0xBF ∧ 0xC2 ≤ c := by
  unfold first at h
  split_ifs at h <;> simp at h <;> omega

theorem first_continuation (c : Nat) (h₁ : 0x80 ≤ c) (h₂ : c ≤ 0xBF) : first c = none := by
  unfold first
  have e1 : ¬ (0xC2 ≤ c ∧ c ≤ 0xDF) := by omega
  have e2 : ¬ c = 0xE0 := by omega
  have e3 : ¬ (0xE1 ≤ c ∧ c ≤ 0xEC) := by omega
  have e4 : ¬ c = 0xED := by omega
  have e5 : ¬ (0xEE ≤ c ∧ c ≤ 0xEF) := by omega
  have e6 : ¬ c = 0xF0 := by omega
  have e7 : ¬ (0xF1 ≤ c ∧ c ≤ 0xF3) := by omega
  have e8 : ¬ c = 0xF4 := by omega
  rw [if_neg e1, if_neg e2, if_neg e3, if_neg e4, if_neg e5, if_neg e6, if_neg e7, if_neg e8]

theorem decodeStep_append_boundary (c : Nat) (rest s : GoString)
    (hs : ¬ (0x80 ≤ s.getD 0 0 ∧ s.getD 0 0 ≤ 0xBF)) :
    (decodeStep (c :: (rest ++ s))).1 = (decodeStep (c :: rest)).1 := by
  cases s with
  | nil => rw [List.append_nil]
  | cons b t =>
    have hb : ¬ (0x80 ≤ b ∧ b ≤ 0xBF) := by simpa using hs
    rw [decodeStep_cons c (rest ++ b :: t), decodeStep_cons c rest]
    by_cases hc : c < 0x80
    · simp [hc]
    · rw [if_neg hc, if_neg hc]
      rcases hf : first c with _ | ⟨size, lo, hi⟩
      · rfl
      · obtain ⟨hlo, hhi, -⟩ := first_range c size lo hi hf
        have hsz := first_size c size lo hi hf
        simp only
        rcases rest with _ | ⟨a₁, _ | ⟨a₂, _ | ⟨a₃, tl⟩⟩⟩
        · rcases hsz with h | h | h <;> subst h <;> simp <;> split_ifs <;> first | rfl | omega
        · rcases hsz with h | h | h <;> subst h <;> simp <;> split_ifs <;> first | rfl | omega
        · rcases hsz with h | h | h <;> subst h <;> simp <;> split_ifs <;> first | rfl | omega
        · rcases hsz with h | h | h <;> subst h <;> simp <;> split_ifs <;> first | rfl | omega

theorem RuneCountInString_append_right (s : GoString)
    (hs : ¬ (0x80 ≤ s.getD 0 0 ∧ s.getD 0 0 ≤ 0xBF)) :
    ∀ (n : Nat) (x : GoString), x.length ≤ n →
      RuneCountInString (x ++ s) = RuneCountInString x + RuneCountInString s := by
  intro n
  induction n with
  | zero =>
    intro x hx
    have : x = [] := List.length_eq_zero.mp (by omega)
    subst this
    simp [RuneCountInString_nil]
  | succ n ih =>
    intro x hx
    cases x with
    | nil => simp [RuneCountInString_nil]
    | cons c rest =>
      have hb := decodeStep_bounds c rest
      have hstep := decodeStep_append_boundary c rest s hs
      have hrec := ih ((c :: rest).drop (decodeStep (c :: rest)).1)
        (by simp only [List.length_drop, List.length_cons] at *; omega)
      rw [RuneCountInString_cons c rest, List.cons_append,
        RuneCountInString_cons c (rest ++ s), hstep, ← List.cons_append,
        List.drop_append_of_le_length (by simp only [List.length_cons]; omega), hrec]
      omega

theorem RuneCountInString_le_length :
    ∀ (n : Nat) (x : GoString), x.length ≤ n → RuneCountInString x ≤ x.length := by
  intro n
  induction n with
  | zero =>
    intro x hx
    have : x = [] := List.length_eq_zero.mp (by omega)
    subst this
    simp [RuneCountInString_nil]
  | succ n ih =>
    intro x hx
    cases x with
    | nil => simp [RuneCountInString_nil]
    | cons c rest =>
      have hb := decodeStep_bounds c rest
      have hrec := ih ((c :: rest).drop (decodeStep (c :: rest)).1)
        (by simp only [List.length_drop, List.length_cons] at *; omega)
      rw [RuneCountInString_cons c rest]
      simp only [List.length_drop, List.length_cons] at *
      omega

theorem ValidString_start (s : GoString) (h : ValidString s = true) :
    ¬ (0x80 ≤ s.getD 0 0 ∧ s.getD 0 0 ≤ 0xBF) := by
  cases s with
  | nil => simp
  | cons c rest =>
    rw [ValidString_cons, Bool.and_eq_true] at h
    have h1 := h.1
    rw [decodeStep_cons] at h1
    intro hc
    have hc' : c = (c :: rest).getD 0 0 := by simp
    rw [← hc'] at hc
    have hn : ¬ c < 0x80 := by omega
    rw [if_neg hn, first_continuation c hc.1 hc.2] at h1
    simp at h1

theorem leadBytes_nil : leadBytes [] = 0 := rfl

theorem leadBytes_cons (b : Nat) (x : GoString) :
    leadBytes (b :: x) = leadBytes x + (if 0x80 ≤ b ∧ b ≤ 0xBF then 0 else 1) := by
  unfold leadBytes
  rw [List.countP_cons]
  by_cases h : 0x80 ≤ b ∧ b ≤ 0xBF <;> simp [isContinuation, h]

theorem leadBytes_append (x y : GoString) : leadBytes (x ++ y) = leadBytes x + leadBytes y := by
  unfold leadBytes
  exact List.countP_append _ x y

set_option maxHeartbeats 4000000 in
theorem leadBytes_step (c : Nat) (rest : GoString) :
    leadBytes (c :: rest) ≤ 1 + leadBytes ((c :: rest).drop (decodeStep (c :: rest)).1) := by
  have hone : leadBytes (c :: rest) ≤ 1 + leadBytes ((c :: rest).drop 1) := by
    rw [leadBytes_cons, List.drop_one, List.tail_cons]
    split_ifs <;> omega
  rw [decodeStep_cons]
  by_cases hc : c < 0x80
  · rw [if_pos hc]
    exact hone
  · rw [if_neg hc]
    rcases hf : first c with _ | ⟨size, lo, hi⟩
    · exact hone
    · obtain ⟨hlo, hhi, -⟩ := first_range c size lo hi hf
      have hsz := first_size c size lo hi hf
      simp only
      rcases rest with _ | ⟨a₁, _ | ⟨a₂, _ | ⟨a₃, tl⟩⟩⟩
      all_goals
        rcases hsz with h | h | h <;> subst h <;>
          (try simp [leadBytes_cons, leadBytes_nil]) <;> (try split_ifs) <;>
          (try simp [leadBytes_cons, leadBytes_nil]) <;> (try split_ifs) <;>
          (try omega)

theorem leadBytes_le_count :
    ∀ (n : Nat) (x : GoString), x.length ≤ n → leadBytes x ≤ RuneCountInString x := by
  intro n
  induction n with
  | zero =>
    intro x hx
    have : x = [] := List.length_eq_zero.mp (by omega)
    subst this
    simp [RuneCountInString_nil, leadBytes_nil]
  | succ n ih =>
    intro x hx
    cases x with
    | nil => simp [RuneCountInString_nil, leadBytes_nil]
    | cons c rest =>
      have hb := decodeStep_bounds c rest
      have hstep := leadBytes_step c rest
      have hrec := ih ((c :: rest).drop (decodeStep (c :: rest)).1)
        (by simp only [List.length_drop, List.length_cons] at *; omega)
      rw [RuneCountInString_cons c rest]
      omega

theorem RuneCountInString_continuation (x : GoString)
    (h : ∀ b ∈ x, 0x80 ≤ b ∧ b ≤ 0xBF) : RuneCountInString x = x.length := by
  induction x with
  | nil => simp [RuneCountInString_nil]
  | cons c rest ih =>
    have hc := h c (by simp)
    have hstep : (decodeStep (c :: rest)).1 = 1 := by
      rw [decodeStep_cons, if_neg (by omega), first_continuation c hc.1 hc.2]
    rw [RuneCountInString_cons, hstep, List.drop_one, List.tail_cons,
      ih (fun b hb => h b (List.mem_cons_of_mem c hb)), List.length_cons]
    omega

theorem leadBytes_pos (g : GoString) (h : ¬ ∀ b ∈ g, 0x80 ≤ b ∧ b ≤ 0xBF) :
    1 ≤ leadBytes g := by
  induction g with
  | nil => simp at h
  | cons c rest ih =>
    rw [leadBytes_cons]
    by_cases hc : 0x80 ≤ c ∧ c ≤ 0xBF
    · have hrest : ¬ ∀ b ∈ rest, 0x80 ≤ b ∧ b ≤ 0xBF := by
        intro hall
        apply h
        intro b hb
        rcases List.mem_cons.mp hb with rfl | hb'
        · exact hc
        · exact hall b hb'
      have := ih hrest
      omega
    · rw [if_neg hc]
      omega

theorem RuneCountInString_copies (g : GoString) (hg : g ≠ []) (k : Nat) :
    k ≤ RuneCountInString (List.replicate k g).flatten := by
  by_cases hall : ∀ b ∈ g, 0x80 ≤ b ∧ b ≤ 0xBF
  · have hflat : ∀ b ∈ (List.replicate k g).flatten, 0x80 ≤ b ∧ b ≤ 0xBF := by
      intro b hb
      obtain ⟨l, hl, hbl⟩ := List.mem_flatten.mp hb
      rw [List.eq_of_mem_replicate hl] at hbl
      exact hall b hbl
    have hlen : 1 ≤ g.length := List.length_pos.mpr hg
    have hk : k ≤ k * g.length := Nat.le_mul_of_pos_right k hlen
    rw [RuneCountInString_continuation _ hflat]
    simpa using hk
  · have hpos := leadBytes_pos g hall
    have hlead : leadBytes (List.replicate k g).flatten = k * leadBytes g := by
      induction k with
      | zero => simp [leadBytes_nil]
      | succ k ih =>
        rw [List.replicate_succ, List.flatten_cons, leadBytes_append, ih]
        ring
    have hk : k ≤ k * leadBytes g := Nat.le_mul_of_pos_right k hpos
    have := leadBytes_le_count _ (List.replicate k g).flatten (le_refl _)
    omega

/-- C7, as the code has it: padding is idempotent whenever the zero glyph of
the locale is well-formed UTF-8 (an empty or multi-character zero glyph
included), or the string `s` is well-formed UTF-8, or, more generally, `s` does
not begin with a continuation byte. For every width `w` of the Go `int` and
every call of `pad` that returns a Go string (a string of fewer than 2^63
bytes): `pad(pad(s, w), w) = pad(s, w)`. -/
theorem pad_idempotent (lc : localeData) (s : GoString) (w : Int)
    (hw : minInt ≤ w ∧ w ≤ maxInt) (hlen : (pad lc s w).length < maxLen)
    (hv : ValidString (paddingCh lc) = true ∨ ValidString s = true ∨
      isContinuation (s.getD 0 0) = false) :
    pad lc (pad lc s w) w = pad lc s w := by
  have hv : ValidString (paddingCh lc) = true ∨
      ¬ (0x80 ≤ s.getD 0 0 ∧ s.getD 0 0 ≤ 0xBF) := by
    rcases hv with h | h | h
    · exact Or.inl h
    · exact Or.inr (ValidString_start s h)
    · exact Or.inr (by simpa [isContinuation] using h)
  unfold maxInt at hw
  suffices hcase : pad lc s w = s ∨ pad lc (pad lc s w) w = pad lc s w by
    rcases hcase with h | h
    · rw [h, h]
    · exact h
  unfold minInt at hw
  unfold maxLen at hlen
  by_cases he : (RuneCountInString s : Int) = w
  · left
    simp [pad, he]
  by_cases hneg : wrapInt (w - (RuneCountInString s : Int)) < 0
  · left
    simp [pad, he, hneg]
  have hpad : pad lc s w
      = padLoop (paddingCh lc) (wrapInt (w - (RuneCountInString s : Int))).toNat s := by
    simp [pad, he, hneg]
  by_cases hg : paddingCh lc = []
  · left
    rw [hpad, padLoop_eq, hg]
    simp
  right
  have hglen : 1 ≤ (paddingCh lc).length := List.length_pos.mpr hg
  have hcs := RuneCountInString_le_length _ s (le_refl _)
  have hrlen := padLoop_length (paddingCh lc)
    (wrapInt (w - (RuneCountInString s : Int))).toNat s
  rw [hpad] at hlen
  rw [hrlen] at hlen
  have hkle : (wrapInt (w - (RuneCountInString s : Int))).toNat
      ≤ (wrapInt (w - (RuneCountInString s : Int))).toNat * (paddingCh lc).length :=
    Nat.le_mul_of_pos_right _ hglen
  have hnowrap : wrapInt (w - (RuneCountInString s : Int)) = w - (RuneCountInString s : Int) := by
    by_contra hne
    have hwrapped : wrapInt (w - (RuneCountInString s : Int))
        = w - (RuneCountInString s : Int) + 18446744073709551616 := by
      unfold wrapInt at hne hneg ⊢
      omega
    have : ((wrapInt (w - (RuneCountInString s : Int))).toNat : Int)
        = w - (RuneCountInString s : Int) + 18446744073709551616 := by
      rw [Int.toNat_of_nonneg (by omega), hwrapped]
    omega
  rw [hnowrap] at hpad hkle hlen
  have hkpos : 0 < w - (RuneCountInString s : Int) := by
    rw [hnowrap] at hneg
    omega
  have hk : (((w - (RuneCountInString s : Int)).toNat : Nat) : Int)
      = w - (RuneCountInString s : Int) := Int.toNat_of_nonneg (by omega)
  have hcount : (w - (RuneCountInString s : Int)).toNat + RuneCountInString s
      ≤ RuneCountInString (padLoop (paddingCh lc) (w - (RuneCountInString s : Int)).toNat s) := by
    rcases hv with hvg | hvs
    · rw [RuneCountInString_padLoop _ hvg]
      have h1 : 1 ≤ RuneCountInString (paddingCh lc) := by
        by_contra h0
        exact hg (RuneCountInString_eq_zero _ (by omega))
      have := Nat.le_mul_of_pos_right (w - (RuneCountInString s : Int)).toNat h1
      omega
    · rw [padLoop_eq, RuneCountInString_append_right s hvs _ _ (le_refl _)]
      have := RuneCountInString_copies (paddingCh lc) hg (w - (RuneCountInString s : Int)).toNat
      omega
  have hrcount := RuneCountInString_le_length _
    (padLoop (paddingCh lc) (w - (RuneCountInString s : Int)).toNat s) (le_refl _)
  rw [padLoop_length] at hrcount
  rw [hpad]
  apply pad_of_le
  · omega
  · omega

theorem pad_idempotent_witness :
    pad arabic (pad arabic [0xA9] 3) 3 = pad arabic [0xA9] 3 ∧
      pad truncatedZero (pad truncatedZero (str "5") 3) 3 = pad truncatedZero (str "5") 3 ∧
      pad truncatedZero (pad truncatedZero [0xFF] 3) 3 = pad truncatedZero [0xFF] 3 :=
  ⟨pad_idempotent arabic [0xA9] 3 (by decide) (by decide) (Or.inl (by decide)),
    pad_idempotent truncatedZero (str "5") 3 (by decide) (by decide)
      (Or.inr (Or.inl (by decide))),
    pad_idempotent truncatedZero [0xFF] 3 (by decide) (by decide)
      (Or.inr (Or.inr (by decide)))⟩

/-- C7, as stated, fails: with the ill-formed zero glyph 0xC3, the ill-formed
string made of the byte 0xA9 and width 3, `pad` writes two glyphs, the last of
which forms one rune with the byte 0xA9, so the result has 2 runes and a second
`pad` adds a third glyph. -/
theorem pad_not_idempotent :
    pad truncatedZero [0xA9] 3 = [0xC3, 0xC3, 0xA9] ∧
      pad truncatedZero (pad truncatedZero [0xA9] 3) 3 = [0xC3, 0xC3, 0xC3, 0xA9] ∧
      pad truncatedZero (pad truncatedZero [0xA9] 3) 3 ≠ pad truncatedZero [0xA9] 3 := by
  decide

theorem matchGlyph_first (s : GoString) :
    ∀ (table : List GoString) (d : Nat), d < table.length →
      (∀ j, j < d → s.take (table.getD j []).length ≠ table.getD j []) →
      s.take (table.getD d []).length = table.getD d [] →
      matchGlyph table s = some d := by
  intro table
  induction table with
  | nil => intro d hd; simp at hd
  | cons g tl ih =>
    intro d hd hbefore hat
    cases d with
    | zero =>
      have hat' : s.take g.length = g := by simpa using hat
      simp [matchGlyph, hat']
    | succ k =>
      have h0 : ¬ s.take g.length = g := by simpa using hbefore 0 (by omega)
      have hrec := ih k (by simpa using hd)
        (fun j hj => by simpa using hbefore (j + 1) (by omega)) (by simpa using hat)
      simp [matchGlyph, h0, hrec]

theorem matchGlyph_glyph (table : List GoString) (hcut : cutsUniquely table) (d : Nat)
    (hd : d < table.length) (rest : GoString) :
    matchGlyph table (table.getD d [] ++ rest) = some d := by
  apply matchGlyph_first _ table d hd
  · intro j hj hpre
    have hjl : j < table.length := by omega
    by_cases hle : (table.getD j []).length ≤ (table.getD d []).length
    · rw [List.take_append_of_le_length hle] at hpre
      have := hcut j d hjl hd hpre
      omega
    · have hpre2 : (table.getD j []).take (table.getD d []).length = table.getD d [] := by
        rw [← hpre, List.take_take, Nat.min_eq_left (by omega), List.take_left]
      have := hcut d j hd hjl hpre2
      omega
  · exact List.take_left _ _

theorem cutsUniquely_nonempty (table : List GoString) (hcut : cutsUniquely table)
    (hlen : 2 ≤ table.length) (d : Nat) (hd : d < table.length) : table.getD d [] ≠ [] := by
  intro hnil
  have h0 := hcut d 0 hd (by omega) (by rw [hnil]; rfl)
  have h1 := hcut d 1 hd (by omega) (by rw [hnil]; rfl)
  omega

theorem glyphIndices_glyphs (table : List GoString) (hcut : cutsUniquely table)
    (hlen : 2 ≤ table.length) :
    ∀ (ds : List Nat), (∀ d ∈ ds, d < table.length) → ∀ fuel : Nat, ds.length ≤ fuel →
      glyphIndices table fuel (ds.map (fun d => table.getD d [])).flatten = some ds := by
  intro ds
  induction ds with
  | nil =>
    intro _ fuel _
    cases fuel <;> simp [glyphIndices]
  | cons d ds ih =>
    intro hds fuel hfuel
    have hd : d < table.length := hds d (by simp)
    have hne := cutsUniquely_nonempty table hcut hlen d hd
    cases fuel with
    | zero => simp at hfuel
    | succ fuel =>
      have hs : ¬ (table.getD d [] ++ (ds.map (fun d => table.getD d [])).flatten = []) :=
        fun h => hne (List.append_eq_nil.mp h).1
      have hrec := ih (fun x hx => hds x (List.mem_cons_of_mem d hx)) fuel
        (by simpa using hfuel)
      rw [List.map_cons, List.flatten_cons, glyphIndices, if_neg hs,
        matchGlyph_glyph table hcut d hd]
      simp only [List.drop_left, hrec, Option.map_some']

theorem length_glyphs (table : List GoString) (hcut : cutsUniquely table)
    (hlen : 2 ≤ table.length) :
    ∀ (ds : List Nat), (∀ d ∈ ds, d < table.length) →
      ds.length ≤ (ds.map (fun d => table.getD d [])).flatten.length := by
  intro ds
  induction ds with
  | nil => intro _; simp
  | cons d ds ih =>
    intro hds
    have hd : d < table.length := hds d (by simp)
    have hne := cutsUniquely_nonempty table hcut hlen d hd
    have hpos : 1 ≤ (table.getD d []).length := List.length_pos.mpr hne
    have hrec := ih (fun x hx => hds x (List.mem_cons_of_mem d hx))
    rw [List.map_cons, List.flatten_cons, List.length_append, List.length_cons]
    omega

theorem numeral_eq_glyphs (table : List GoString) (n : Nat) :
    numeral table n = ((decimalDigits n).map (fun d => table.getD d [])).flatten := by
  unfold numeral decimalDigits
  by_cases h0 : n = 0
  · simp [h0]
  · simp [h0]

theorem decimalDigits_lt (n d : Nat) (hd : d ∈ decimalDigits n) : d < 10 := by
  unfold decimalDigits at hd
  by_cases h0 : n = 0
  · simp [h0] at hd
    omega
  · rw [if_neg h0] at hd
    exact Nat.digits_lt_base (by omega) (List.mem_reverse.mp hd)

theorem cutsUniquely_of_runes (table : List GoString) (hnd : table.Nodup)
    (hrune : ∀ g ∈ table, isRune g = true) : cutsUniquely table := by
  intro i j hi hj hpre
  have hgi : isRune (table.getD i []) = true := by
    rw [List.getD_eq_getElem _ _ hi]
    exact hrune _ (List.getElem_mem hi)
  have hgj : isRune (table.getD j []) = true := by
    rw [List.getD_eq_getElem _ _ hj]
    exact hrune _ (List.getElem_mem hj)
  simp only [isRune, Bool.and_eq_true, beq_iff_eq] at hgi hgj
  have hsplit : table.getD j [] = table.getD i [] ++ (table.getD j []).drop (table.getD i []).length := by
    conv_lhs => rw [← List.take_append_drop (table.getD i []).length (table.getD j [])]
    rw [hpre]
  have hstep := decodeStep_append (table.getD i [])
    ((table.getD j []).drop (table.getD i []).length) hgi.1
  rw [← hsplit] at hstep
  have hlen : (table.getD j []).length = (table.getD i []).length := by
    rw [← hgj.2, hstep, hgi.2]
  have heq : table.getD j [] = table.getD i [] := by
    rw [← hpre, List.take_of_length_le (by omega)]
  rw [List.getD_eq_getElem _ _ hi, List.getD_eq_getElem _ _ hj] at heq
  exact ((hnd.getElem_inj_iff).mp heq).symm

/-- C6, as the code has it: the numeral round trip. For every integer `n ≥ 0`
(so for every `n` below 1 000 000) and every table `Numbers` of 10 glyphs,
`translateNumber` returns the glyphs `Numbers[d]` of the decimal digits `d` of
`n`, most significant first, and the single glyph `Numbers[0]` for `n = 0`.
When no glyph of the table is the beginning of another one, as is the case for
10 one-character glyphs that differ from one another, cutting the result of
`translateNumber` into glyphs and mapping each glyph back to its index gives
the decimal digits of `n`. Without a table the result is the ASCII decimal
representation of `n`. -/
theorem translateNumber_round_trip (lc : localeData) (n : Nat) :
    (lc.Numbers.length = 10 →
      translateNumber lc (n : Int) = .ok (numeral lc.Numbers n) ∧
      translateNumber lc 0 = .ok (lc.Numbers.getD 0 []) ∧
      (cutsUniquely lc.Numbers →
        ∃ out, translateNumber lc (n : Int) = .ok out ∧
          glyphIndices lc.Numbers out.length out = some (decimalDigits n)) ∧
      (lc.Numbers.Nodup → (∀ g ∈ lc.Numbers, isRune g = true) → cutsUniquely lc.Numbers)) ∧
    (lc.Numbers = [] → translateNumber lc (n : Int) = .ok (asciiDecimal n)) := by
  refine ⟨fun hlen => ⟨translateNumber_nat lc n hlen, ?_, fun hcut => ?_,
    cutsUniquely_of_runes lc.Numbers⟩, translateNumber_ascii lc n⟩
  · simpa [numeral] using translateNumber_nat lc 0 hlen
  · refine ⟨numeral lc.Numbers n, translateNumber_nat lc n hlen, ?_⟩
    have hds : ∀ d ∈ decimalDigits n, d < lc.Numbers.length := by
      intro d hd
      have := decimalDigits_lt n d hd
      omega
    rw [numeral_eq_glyphs]
    exact glyphIndices_glyphs lc.Numbers hcut (by omega) _ hds _
      (length_glyphs lc.Numbers hcut (by omega) _ hds)

theorem translateNumber_round_trip_witness :
    translateNumber arabic (2006 : Nat) =
        .ok [0xD9, 0xA2, 0xD9, 0xA0, 0xD9, 0xA0, 0xD9, 0xA6] ∧
      glyphIndices arabic.Numbers 8 [0xD9, 0xA2, 0xD9, 0xA0, 0xD9, 0xA0, 0xD9, 0xA6] =
        some [2, 0, 0, 6] ∧
      translateNumber english (2006 : Nat) = .ok (str "2006") := by
  have h := translateNumber_round_trip arabic 2006
  have h2 := translateNumber_round_trip english 2006
  have hlen : arabic.Numbers.length = 10 := by decide
  have hcut : cutsUniquely arabic.Numbers :=
    (h.1 hlen).2.2.2 (by decide) (by decide)
  have hout : translateNumber arabic (2006 : Nat) =
      .ok [0xD9, 0xA2, 0xD9, 0xA0, 0xD9, 0xA0, 0xD9, 0xA6] := by
    rw [(h.1 hlen).1]
    simp [numeral, arabic, easternArabic]
  have hdig : decimalDigits 2006 = [2, 0, 0, 6] := by
    simp [decimalDigits]
  obtain ⟨out, hok, hidx⟩ := (h.1 hlen).2.2.1 hcut
  rw [hout] at hok
  have hout' : out = [0xD9, 0xA2, 0xD9, 0xA0, 0xD9, 0xA0, 0xD9, 0xA6] := by
    injection hok with e
    exact e.symm
  rw [hout', hdig] at hidx
  refine ⟨hout, hidx, ?_⟩
  rw [h2.2 (by decide)]
  simp [asciiDecimal, str]

/-- C6, as stated, fails: in a table of 10 glyphs where the glyph of 0 is also
the glyph of 1, `translateNumber` returns the same string for 0 and for 1, and
the index of the glyph written for 1 is 0, not the digit 1. In a table of 10
different glyphs where the glyph of 0 is the beginning of the glyph of 1, it
returns the same string for 11 and for 100. -/
theorem translateNumber_not_injective :
    repeatedGlyph.Numbers.length = 10 ∧
      translateNumber repeatedGlyph 1 = .ok (str "a") ∧
      translateNumber repeatedGlyph 0 = .ok (str "a") ∧
      glyphIndices repeatedGlyph.Numbers 1 (str "a") = some [0] ∧
      glyphIndices repeatedGlyph.Numbers 1 (str "a") ≠ some [1] ∧
      overlappingGlyphs.Numbers.length = 10 ∧ overlappingGlyphs.Numbers.Nodup ∧
      translateNumber overlappingGlyphs 11 = translateNumber overlappingGlyphs 100 := by
  decide

/-! ## Zero-padded numeric fields -/

theorem digits_lt_ten (n : Nat) (h0 : 0 < n) (h : n < 10) : Nat.digits 10 n = [n] :=
  Nat.digits_of_lt 10 n (by omega) h

theorem digits_lt_hundred (n : Nat) (h0 : 10 ≤ n) (h : n < 100) :
    Nat.digits 10 n = [n % 10, n / 10] := by
  have hd : Nat.digits 10 n = (n % 10) :: Nat.digits 10 (n / 10) :=
    Nat.digits_def' (by omega) (by omega)
  rw [hd, digits_lt_ten (n / 10) (by omega) (by omega)]

theorem digits_lt_thousand (n : Nat) (h0 : 100 ≤ n) (h : n < 1000) :
    Nat.digits 10 n = [n % 10, n / 10 % 10, n / 100] := by
  have hd : Nat.digits 10 n = (n % 10) :: Nat.digits 10 (n / 10) :=
    Nat.digits_def' (by omega) (by omega)
  rw [hd, digits_lt_hundred (n / 10) (by omega) (by omega)]
  have : n / 10 / 10 = n / 100 := by omega
  rw [this]

theorem paddingCh_eq (lc : localeData) : paddingCh lc = digitGlyph lc 0 := by
  unfold paddingCh digitGlyph
  cases lc.Numbers <;> simp [str]

theorem isRune_digitGlyph (lc : localeData) (hnum : oneCharNumbers lc) (d : Nat) (hd : d < 10) :
    isRune (digitGlyph lc d) = true := by
  rcases hnum with hnil | ⟨hlen, hall⟩
  · have h128 : 48 + d < 128 := by omega
    simp [digitGlyph, hnil, isRune, decodeStep, h128]
  · have hlt : d < lc.Numbers.length := by omega
    have hmem : lc.Numbers.getD d [] ∈ lc.Numbers := by
      rw [List.getD_eq_getElem _ _ hlt]
      exact List.getElem_mem hlt
    have hg : digitGlyph lc d = lc.Numbers.getD d [] := by
      unfold digitGlyph
      cases hN : lc.Numbers with
      | nil => rw [hN] at hlen; simp at hlen
      | cons a l => rfl
    rw [hg]
    exact hall _ hmem

theorem RuneCountInString_digitGlyph (lc : localeData) (hnum : oneCharNumbers lc) (d : Nat)
    (hd : d < 10) (s : GoString) :
    RuneCountInString (digitGlyph lc d ++ s) = 1 + RuneCountInString s :=
  RuneCountInString_rune _ s (isRune_digitGlyph lc hnum d hd)

theorem RuneCountInString_twoGlyphs (lc : localeData) (hnum : oneCharNumbers lc) (n : Nat) :
    RuneCountInString (twoGlyphs lc n) = 2 := by
  have h := RuneCountInString_digitGlyph lc hnum (n % 10) (by omega) []
  rw [List.append_nil, RuneCountInString_nil] at h
  rw [twoGlyphs, RuneCountInString_digitGlyph lc hnum (n / 10 % 10) (by omega), h]

theorem RuneCountInString_threeGlyphs (lc : localeData) (hnum : oneCharNumbers lc) (n : Nat) :
    RuneCountInString (threeGlyphs lc n) = 3 := by
  rw [threeGlyphs, RuneCountInString_digitGlyph lc hnum (n / 100 % 10) (by omega),
    RuneCountInString_twoGlyphs lc hnum n]

theorem translateNumber_glyphs (lc : localeData) (hnum : oneCharNumbers lc) (n : Nat) :
    translateNumber lc (n : Int) =
      .ok (if n = 0 then digitGlyph lc 0
        else ((Nat.digits 10 n).reverse.map (digitGlyph lc)).flatten) := by
  rcases hnum with hnil | ⟨hlen, -⟩
  · rw [translateNumber_ascii lc n hnil]
    have hfun : digitGlyph lc = fun d => [48 + d] := by
      funext d
      simp [digitGlyph, hnil]
    simp only [asciiDecimal, hfun]
    congr 1
    by_cases h0 : n = 0
    · simp [h0]
    · simp only [if_neg h0]
      induction (Nat.digits 10 n).reverse with
      | nil => rfl
      | cons a l ih => simp [ih]
  · rw [translateNumber_nat lc n hlen]
    have hfun : digitGlyph lc = fun d => lc.Numbers.getD d [] := by
      funext d
      unfold digitGlyph
      cases hN : lc.Numbers with
      | nil => rw [hN] at hlen; simp at hlen
      | cons a l => rfl
    simp only [numeral, hfun]

theorem translateNumber_lt_ten (lc : localeData) (hnum : oneCharNumbers lc) (n : Nat)
    (h : n < 10) : translateNumber lc (n : Int) = .ok (digitGlyph lc n) := by
  rw [translateNumber_glyphs lc hnum n]
  by_cases h0 : n = 0
  · simp [h0]
  · simp [h0, digits_lt_ten n (by omega) h]

theorem translateNumber_lt_hundred (lc : localeData) (hnum : oneCharNumbers lc) (n : Nat)
    (h0 : 10 ≤ n) (h : n < 100) : translateNumber lc (n : Int) = .ok (twoGlyphs lc n) := by
  have hne : ¬ n = 0 := by omega
  have ht : n / 10 % 10 = n / 10 := by omega
  rw [translateNumber_glyphs lc hnum n, if_neg hne, digits_lt_hundred n h0 h]
  simp [twoGlyphs, ht]

theorem translateNumber_lt_thousand (lc : localeData) (hnum : oneCharNumbers lc) (n : Nat)
    (h0 : 100 ≤ n) (h : n < 1000) : translateNumber lc (n : Int) = .ok (threeGlyphs lc n) := by
  have hne : ¬ n = 0 := by omega
  have ht : n / 100 % 10 = n / 100 := by omega
  rw [translateNumber_glyphs lc hnum n, if_neg hne, digits_lt_thousand n h0 h]
  simp [threeGlyphs, twoGlyphs, ht]

theorem padLoop_one (g s : GoString) : padLoop g 1 s = g ++ s := by
  simp [padLoop]

theorem padLoop_two (g s : GoString) : padLoop g 2 s = g ++ (g ++ s) := by
  simp [padLoop]

theorem padded_two (lc : localeData) (hnum : oneCharNumbers lc) (v : Int) (h0 : 0 ≤ v)
    (h : v < 100) :
    (do let n ← translateNumber lc v; pure (pad lc n 2)) = Except.ok (twoGlyphs lc v.toNat) := by
  obtain ⟨n, rfl⟩ := Int.eq_ofNat_of_zero_le h0
  have hn : n < 100 := by omega
  rw [Int.toNat_ofNat]
  by_cases h10 : n < 10
  · have hc := RuneCountInString_digitGlyph lc hnum n h10 []
    rw [List.append_nil, RuneCountInString_nil] at hc
    have hp : pad lc (digitGlyph lc n) 2 = twoGlyphs lc n := by
      rw [pad_of_lt lc _ 2 (by rw [hc]; decide) (by rw [hc]; decide), hc]
      have hk : ((2 : Int) - ((1 + 0 : Nat) : Int)).toNat = 1 := by decide
      have ht : n / 10 % 10 = 0 := by omega
      have hu : n % 10 = n := by omega
      rw [hk, padLoop_one, paddingCh_eq, twoGlyphs, ht, hu]
    rw [translateNumber_lt_ten lc hnum n h10]
    simp [bind, Except.bind, pure, Except.pure, hp]
  · have hc := RuneCountInString_twoGlyphs lc hnum n
    have hp : pad lc (twoGlyphs lc n) 2 = twoGlyphs lc n :=
      pad_of_le lc _ 2 (by rw [hc]; decide) (by rw [hc]; decide)
    rw [translateNumber_lt_hundred lc hnum n (by omega) hn]
    simp [bind, Except.bind, pure, Except.pure, hp]

theorem padded_three (lc : localeData) (hnum : oneCharNumbers lc) (v : Int) (h0 : 0 ≤ v)
    (h : v < 1000) :
    (do let n ← translateNumber lc v; pure (pad lc n 3)) = Except.ok (threeGlyphs lc v.toNat) := by
  obtain ⟨n, rfl⟩ := Int.eq_ofNat_of_zero_le h0
  have hn : n < 1000 := by omega
  rw [Int.toNat_ofNat]
  by_cases h10 : n < 10
  · have hc := RuneCountInString_digitGlyph lc hnum n h10 []
    rw [List.append_nil, RuneCountInString_nil] at hc
    have hp : pad lc (digitGlyph lc n) 3 = threeGlyphs lc n := by
      rw [pad_of_lt lc _ 3 (by rw [hc]; decide) (by rw [hc]; decide), hc]
      have hk : ((3 : Int) - ((1 + 0 : Nat) : Int)).toNat = 2 := by decide
      have hh : n / 100 % 10 = 0 := by omega
      have ht : n / 10 % 10 = 0 := by omega
      have hu : n % 10 = n := by omega
      rw [hk, padLoop_two, paddingCh_eq, threeGlyphs, twoGlyphs, hh, ht, hu]
    rw [translateNumber_lt_ten lc hnum n h10]
    simp [bind, Except.bind, pure, Except.pure, hp]
  · by_cases h100 : n < 100
    · have hc := RuneCountInString_twoGlyphs lc hnum n
      have hp : pad lc (twoGlyphs lc n) 3 = threeGlyphs lc n := by
        rw [pad_of_lt lc _ 3 (by rw [hc]; decide) (by rw [hc]; decide), hc]
        have hk : ((3 : Int) - ((2 : Nat) : Int)).toNat = 1 := by decide
        have hh : n / 100 % 10 = 0 := by omega
        rw [hk, padLoop_one, paddingCh_eq, threeGlyphs, hh]
      rw [translateNumber_lt_hundred lc hnum n (by omega) h100]
      simp [bind, Except.bind, pure, Except.pure, hp]
    · have hc := RuneCountInString_threeGlyphs lc hnum n
      have hp : pad lc (threeGlyphs lc n) 3 = threeGlyphs lc n :=
        pad_of_le lc _ 3 (by rw [hc]; decide) (by rw [hc]; decide)
      rw [translateNumber_lt_thousand lc hnum n (by omega) hn]
      simp [bind, Except.bind, pure, Except.pure, hp]

theorem Strftime_dispatch (lc : localeData) (depth : Nat) (c : Nat) (t : Time)
    (r : Except Fault GoString)
    (h : ∀ self : Scanner, parseDirective lc self [37, c] t = r) :
    Strftime lc depth [37, c] t = r := by
  obtain ⟨self, -, -, hS⟩ := Strftime_single lc depth c t
  rw [hS, h self]

/-- C9: zero-padded numeric fields have a fixed width in locale glyphs. For a
time with in-range fields and a locale whose numeral table is empty or holds 10
one-character glyphs, each of %d, %H, %M, %S, %m and %y renders the glyph of
the tens digit and the glyph of the units digit of its field (the year modulo
100 for %y), which are exactly 2 characters, and %j renders the glyphs of the
three digits of the day of the year, exactly 3 characters. -/
theorem fixed_width_fields (lc : localeData) (depth : Nat) (t : Time)
    (hnum : oneCharNumbers lc)
    (hday : 1 ≤ t.Day ∧ t.Day ≤ 31) (hhour : 0 ≤ t.Hour ∧ t.Hour ≤ 23)
    (hmin : 0 ≤ t.Minute ∧ t.Minute ≤ 59) (hsec : 0 ≤ t.Second ∧ t.Second ≤ 59)
    (hmon : 1 ≤ t.Month ∧ t.Month ≤ 12) (hyear : 0 ≤ t.Year)
    (hyd : 1 ≤ t.YearDay ∧ t.YearDay ≤ 366) :
    Strftime lc depth (str "%d") t = .ok (twoGlyphs lc t.Day.toNat) ∧
      Strftime lc depth (str "%H") t = .ok (twoGlyphs lc t.Hour.toNat) ∧
      Strftime lc depth (str "%M") t = .ok (twoGlyphs lc t.Minute.toNat) ∧
      Strftime lc depth (str "%S") t = .ok (twoGlyphs lc t.Second.toNat) ∧
      Strftime lc depth (str "%m") t = .ok (twoGlyphs lc t.Month.toNat) ∧
      Strftime lc depth (str "%y") t = .ok (twoGlyphs lc (t.Year.toNat % 100)) ∧
      Strftime lc depth (str "%j") t = .ok (threeGlyphs lc t.YearDay.toNat) ∧
      (∀ n : Nat, RuneCountInString (twoGlyphs lc n) = 2) ∧
      (∀ n : Nat, RuneCountInString (threeGlyphs lc n) = 3) := by
  have hy : t.Year.tmod 100 = ((t.Year.toNat % 100 : Nat) : Int) := by
    rw [Int.tmod_eq_emod hyear (by omega)]
    omega
  refine ⟨?_, ?_, ?_, ?_, ?_, ?_, ?_, RuneCountInString_twoGlyphs lc hnum,
    RuneCountInString_threeGlyphs lc hnum⟩
  · have e : str "%d" = [37, 100] := by decide
    rw [e]
    apply Strftime_dispatch
    intro self
    simp only [parseDirective, str]
    simpa [perd] using padded_two lc hnum t.Day (by omega) (by omega)
  · have e : str "%H" = [37, 72] := by decide
    rw [e]
    apply Strftime_dispatch
    intro self
    simp only [parseDirective, str]
    simpa [perH] using padded_two lc hnum t.Hour (by omega) (by omega)
  · have e : str "%M" = [37, 77] := by decide
    rw [e]
    apply Strftime_dispatch
    intro self
    simp only [parseDirective, str]
    simpa [perM] using padded_two lc hnum t.Minute (by omega) (by omega)
  · have e : str "%S" = [37, 83] := by decide
    rw [e]
    apply Strftime_dispatch
    intro self
    simp only [parseDirective, str]
    simpa [perS] using padded_two lc hnum t.Second (by omega) (by omega)
  · have e : str "%m" = [37, 109] := by decide
    rw [e]
    apply Strftime_dispatch
    intro self
    simp only [parseDirective, str]
    simpa [perm] using padded_two lc hnum t.Month (by omega) (by omega)
  · have e : str "%y" = [37, 121] := by decide
    rw [e]
    apply Strftime_dispatch
    intro self
    simp only [parseDirective, str]
    have h := padded_two lc hnum ((t.Year.toNat % 100 : Nat) : Int) (by omega) (by omega)
    rw [Int.toNat_ofNat] at h
    simpa [pery, hy] using h
  · have e : str "%j" = [37, 106] := by decide
    rw [e]
    apply Strftime_dispatch
    intro self
    simp only [parseDirective, str]
    simpa [perj] using padded_three lc hnum t.YearDay (by omega) (by omega)

theorem fixed_width_fields_witness :
    oneCharNumbers arabic ∧
      Strftime arabic 0 (str "%d") fifthOfJanuary =
        .ok (arabic.Numbers.getD 0 [] ++ arabic.Numbers.getD 5 []) ∧
      RuneCountInString (arabic.Numbers.getD 0 [] ++ arabic.Numbers.getD 5 []) = 2 ∧
      Strftime arabic 0 (str "%j") fifthOfJanuary =
        .ok [0xD9, 0xA0, 0xD9, 0xA0, 0xD9, 0xA5] := by
  have hnum : oneCharNumbers arabic := Or.inr ⟨by decide, by decide⟩
  have h := fixed_width_fields arabic 0 fifthOfJanuary hnum (by decide) (by decide) (by decide)
    (by decide) (by decide) (by decide) (by decide)
  exact ⟨hnum, h.1, h.2.2.2.2.2.2.2.1 5, h.2.2.2.2.2.2.1⟩

/-! ## The offset from UTC -/

theorem Strftime_perz (lc : localeData) (depth : Nat) (t : Time) :
    Strftime lc depth (str "%z") t = .ok (sprintf_plus05d t.Zone.2) := by
  have e : str "%z" = [37, 122] := by decide
  rw [e]
  apply Strftime_dispatch
  intro self
  simp [parseDirective, str, perz]

/-- C10 fails on the code: `perz` formats the number of seconds of the offset.
For 4 hours 30 minutes behind UTC, an offset of -16200 seconds, "%z" renders
"-16200", not "-0430"; for one hour ahead of UTC it renders "+3600", not
"+0100". Offset zero renders "+0000". -/
theorem perz_renders_seconds :
    Strftime english 0 (str "%z") caracasNoon = .ok (str "-16200") ∧
      Strftime english 0 (str "%z") caracasNoon ≠ .ok (str "-0430") ∧
      Strftime english 0 (str "%z") { refTime with Zone := (str "CET", 3600) } =
        .ok (str "+3600") ∧
      Strftime english 0 (str "%z") refTime = .ok (str "+0000") := by
  decide

/-! ## Week numbers and century -/

theorem Strftime_perU (lc : localeData) (depth : Nat) (t : Time) :
    Strftime lc depth (str "%U") t = perU lc t := by
  have e : str "%U" = [37, 85] := by decide
  rw [e]
  apply Strftime_dispatch
  intro self
  simp [parseDirective, str]

theorem Strftime_perW (lc : localeData) (depth : Nat) (t : Time) :
    Strftime lc depth (str "%W") t = perW lc t := by
  have e : str "%W" = [37, 87] := by decide
  rw [e]
  apply Strftime_dispatch
  intro self
  simp [parseDirective, str]

theorem Strftime_perC (lc : localeData) (depth : Nat) (t : Time) :
    Strftime lc depth (str "%C") t = translateNumber lc (t.Year.tdiv 100) := by
  have e : str "%C" = [37, 67] := by decide
  rw [e]
  apply Strftime_dispatch
  intro self
  simp [parseDirective, str, perC]

/-- C11 fails on the code: `perU` pads the ISO 8601 week number. On 2006-01-01,
a Sunday, the Sunday-based week number of the specification is 1, to be
rendered "01", and the ISO week is week 52 of 2005: "%U" renders "52". -/
theorem perU_renders_iso_week :
    sundayWeek newYear2006 = 1 ∧
      newYear2006.ISOWeek = (2005, 52) ∧
      Strftime english 0 (str "%U") newYear2006 = .ok (str "52") ∧
      Strftime english 0 (str "%U") newYear2006 ≠ .ok (str "01") := by
  decide

/-- C12 fails on the code: `perW` pads the ISO 8601 week number minus one. On
2006-01-02, a Monday, the Monday-based week number of the specification is 1,
to be rendered "01", and the ISO week is week 1 of 2006: "%W" renders "00". On
2006-01-01 the specification has week 0 and "%W" renders "51". -/
theorem perW_renders_iso_week_minus_one :
    mondayWeek refTime = 1 ∧
      refTime.ISOWeek = (2006, 1) ∧
      Strftime english 0 (str "%W") refTime = .ok (str "00") ∧
      Strftime english 0 (str "%W") refTime ≠ .ok (str "01") ∧
      mondayWeek newYear2006 = 0 ∧
      Strftime english 0 (str "%W") newYear2006 = .ok (str "51") := by
  decide

/-- C13 fails on the code: `perC` returns the numeral of the century without
padding it. For the year 999 "%C" renders "9", not "09", where "%y" of the
same year, which is padded, renders "99"; with the Eastern Arabic numerals "%C"
renders the single glyph of 9. -/
theorem perC_not_padded :
    Strftime english 0 (str "%C") newYear999 = .ok (str "9") ∧
      Strftime english 0 (str "%C") newYear999 ≠ .ok (str "09") ∧
      Strftime english 0 (str "%y") newYear999 = .ok (str "99") ∧
      Strftime arabic 0 (str "%C") newYear999 = .ok [0xD9, 0xA9] := by
  decide

/-! ## Weekday numerals -/

theorem asciiDecimal_lt_ten (n : Nat) (h : n < 10) : asciiDecimal n = [48 + n] := by
  unfold asciiDecimal
  by_cases h0 : n = 0
  · simp [h0]
  · simp [h0, digits_lt_ten n (by omega) h]

theorem Strftime_perw (lc : localeData) (depth : Nat) (t : Time) :
    Strftime lc depth (str "%w") t = translateNumber lc t.Weekday := by
  have e : str "%w" = [37, 119] := by decide
  rw [e]
  apply Strftime_dispatch
  intro self
  simp [parseDirective, str, perw]

theorem Strftime_peru (lc : localeData) (depth : Nat) (t : Time) :
    Strftime lc depth (str "%u") t =
      if t.Weekday = 0 then translateNumber lc 7 else translateNumber lc t.Weekday := by
  have e : str "%u" = [37, 117] := by decide
  rw [e]
  apply Strftime_dispatch
  intro self
  simp [parseDirective, str, peru]

/-- C14: weekday numerals. For a weekday in 0..6 (Sunday = 0) and a locale
without numeral table, "%w" renders the weekday as one unpadded digit 0..6 and
"%u" renders one unpadded digit 1..7 with Sunday as 7; so "%w" renders "0"
exactly when "%u" renders "7", and in every other case both render the same. -/
theorem weekday_numerals (lc : localeData) (depth : Nat) (t : Time)
    (hnum : lc.Numbers = []) (hwd : 0 ≤ t.Weekday ∧ t.Weekday ≤ 6) :
    Strftime lc depth (str "%w") t = .ok [48 + t.Weekday.toNat] ∧
      Strftime lc depth (str "%u") t =
        .ok [48 + (if t.Weekday = 0 then 7 else t.Weekday.toNat)] ∧
      (Strftime lc depth (str "%w") t = .ok (str "0") ↔
        Strftime lc depth (str "%u") t = .ok (str "7")) ∧
      (Strftime lc depth (str "%w") t ≠ .ok (str "0") →
        Strftime lc depth (str "%w") t = Strftime lc depth (str "%u") t) := by
  obtain ⟨n, hn⟩ := Int.eq_ofNat_of_zero_le hwd.1
  have hn6 : n ≤ 6 := by omega
  have hw : Strftime lc depth (str "%w") t = .ok [48 + n] := by
    rw [Strftime_perw, hn, translateNumber_ascii lc n hnum, asciiDecimal_lt_ten n (by omega)]
  have h7 : translateNumber lc 7 = .ok [55] := by
    have := translateNumber_ascii lc 7 hnum
    rw [asciiDecimal_lt_ten 7 (by omega)] at this
    exact this
  have hu : Strftime lc depth (str "%u") t = .ok [48 + (if n = 0 then 7 else n)] := by
    rw [Strftime_peru, hn]
    by_cases h0 : n = 0
    · subst h0
      simpa using h7
    · have hz : ¬ ((n : Int) = 0) := by omega
      rw [if_neg hz, if_neg h0, translateNumber_ascii lc n hnum,
        asciiDecimal_lt_ten n (by omega)]
  have hcond : (t.Weekday = 0) ↔ (n = 0) := by omega
  have htoNat : t.Weekday.toNat = n := by omega
  have e0 : str "0" = [48] := by decide
  have e7 : str "7" = [55] := by decide
  rw [hw, hu, e0, e7, htoNat]
  refine ⟨rfl, ?_, ?_, ?_⟩
  · by_cases h0 : n = 0
    · simp [h0, hcond]
    · simp [h0, hcond]
  · by_cases h0 : n = 0
    · simp [h0]
    · have h55 : ¬ (48 + n = 55) := by omega
      simp [h0, h55]
  · intro hne
    have h0 : ¬ n = 0 := by
      intro h0
      apply hne
      simp [h0]
    simp [h0]

theorem weekday_numerals_witness :
    english.Numbers = [] ∧
      Strftime english 0 (str "%w") newYear2006 = .ok (str "0") ∧
      Strftime english 0 (str "%u") newYear2006 = .ok (str "7") ∧
      Strftime english 0 (str "%w") refTime = Strftime english 0 (str "%u") refTime := by
  have h₀ := weekday_numerals english 0 newYear2006 rfl (by decide)
  have h₁ := weekday_numerals english 0 refTime rfl (by decide)
  exact ⟨rfl, h₀.1, h₀.2.1, h₁.2.2.2 (by decide)⟩

/-! ## The space-padded day of the month -/

theorem Strftime_pere (lc : localeData) (depth : Nat) (t : Time) :
    Strftime lc depth (str "%e") t = pere lc t := by
  have e : str "%e" = [37, 101] := by decide
  rw [e]
  apply Strftime_dispatch
  intro self
  simp [parseDirective, str]

/-- C15: "%e" renders the day of the month in locale numerals with a literal
space as the pad character. For a day `d` in 1..31 and every locale: when
`d < 10` the outcome is that of `translateNumber(d)` with the byte 32 in front,
and when `d ≥ 10` it is that of `translateNumber(d)`. With a numeral table
that is empty or holds 10 one-character glyphs the result is a space and the
glyph of `d`, or the two glyphs of `d`: 2 characters, none of them a zero glyph
used as padding. -/
theorem pere_space_padded (lc : localeData) (depth : Nat) (t : Time)
    (hday : 1 ≤ t.Day ∧ t.Day ≤ 31) :
    (t.Day < 10 →
        Strftime lc depth (str "%e") t =
          (translateNumber lc t.Day).map (fun n => str " " ++ n)) ∧
      (10 ≤ t.Day → Strftime lc depth (str "%e") t = translateNumber lc t.Day) ∧
      (oneCharNumbers lc →
        Strftime lc depth (str "%e") t =
            .ok (if t.Day < 10 then 32 :: digitGlyph lc t.Day.toNat
              else twoGlyphs lc t.Day.toNat) ∧
          RuneCountInString (if t.Day < 10 then 32 :: digitGlyph lc t.Day.toNat
              else twoGlyphs lc t.Day.toNat) = 2) := by
  have hlt : t.Day < 10 →
      Strftime lc depth (str "%e") t =
        (translateNumber lc t.Day).map (fun n => str " " ++ n) := by
    intro h
    rw [Strftime_pere]
    simp only [pere, if_pos h]
    cases translateNumber lc t.Day <;> rfl
  have hge : 10 ≤ t.Day → Strftime lc depth (str "%e") t = translateNumber lc t.Day := by
    intro h
    have hn : ¬ t.Day < 10 := by omega
    rw [Strftime_pere]
    simp only [pere, if_neg hn]
  refine ⟨hlt, hge, fun hnum => ?_⟩
  obtain ⟨n, hn⟩ := Int.eq_ofNat_of_zero_le (by omega : 0 ≤ t.Day)
  have htoNat : t.Day.toNat = n := by omega
  rw [htoNat]
  by_cases h : t.Day < 10
  · have hn10 : n < 10 := by omega
    rw [hlt h, if_pos h, hn, translateNumber_lt_ten lc hnum n hn10]
    refine ⟨by simp [Except.map, str], ?_⟩
    have hc := RuneCountInString_digitGlyph lc hnum n hn10 []
    rw [List.append_nil, RuneCountInString_nil] at hc
    have hsp : (decodeStep (32 :: digitGlyph lc n)).1 = 1 := by
      simp [decodeStep]
    rw [RuneCountInString_cons, hsp, List.drop_one, List.tail_cons, hc]
  · rw [hge (by omega), if_neg h, hn,
      translateNumber_lt_hundred lc hnum n (by omega) (by omega)]
    exact ⟨rfl, RuneCountInString_twoGlyphs lc hnum n⟩

theorem pere_space_padded_witness :
    Strftime arabic 0 (str "%e") fifthOfJanuary = .ok [32, 0xD9, 0xA5] ∧
      Strftime english 0 (str "%e") fifthOfJanuary = .ok (str " 5") := by
  have hnumA : oneCharNumbers arabic := Or.inr ⟨by decide, by decide⟩
  have hnumE : oneCharNumbers english := Or.inl rfl
  have hA := (pere_space_padded arabic 0 fifthOfJanuary (by decide)).2.2 hnumA
  have hE := (pere_space_padded english 0 fifthOfJanuary (by decide)).2.2 hnumE
  rw [hA.1, hE.1]
  decide

/-! ## The hour of the 12-hour clock -/

theorem Strftime_perI (lc : localeData) (depth : Nat) (t : Time) :
    Strftime lc depth (str "%I") t = perI lc t := by
  have e : str "%I" = [37, 73] := by decide
  rw [e]
  apply Strftime_dispatch
  intro self
  simp [parseDirective, str]

/-- C19: for an hour `h` in 0..23 and a numeral table that is empty or holds 10
one-character glyphs, "%I" renders the hour of the 12-hour clock, a number in
1..12 that is 12 when `h mod 12 = 0` and `h mod 12` otherwise, as the glyph of
its tens digit and the glyph of its units digit: exactly 2 characters. -/
theorem perI_twelve_hour (lc : localeData) (depth : Nat) (t : Time)
    (hnum : oneCharNumbers lc) (hh : 0 ≤ t.Hour ∧ t.Hour ≤ 23) :
    Strftime lc depth (str "%I") t = .ok (twoGlyphs lc (twelveHour t.Hour.toNat)) ∧
      RuneCountInString (twoGlyphs lc (twelveHour t.Hour.toNat)) = 2 ∧
      1 ≤ twelveHour t.Hour.toNat ∧ twelveHour t.Hour.toNat ≤ 12 ∧
      (t.Hour = 0 ∨ t.Hour = 12 → twelveHour t.Hour.toNat = 12) ∧
      (t.Hour ≠ 0 → t.Hour ≠ 12 → (twelveHour t.Hour.toNat : Int) = t.Hour % 12) := by
  obtain ⟨n, hn⟩ := Int.eq_ofNat_of_zero_le hh.1
  have htoNat : t.Hour.toNat = n := by omega
  have hmod : t.Hour.tmod 12 = ((n % 12 : Nat) : Int) := by
    rw [hn, Int.tmod_eq_emod (by omega) (by omega)]
    omega
  have hval : (if t.Hour.tmod 12 = 0 then (12 : Int) else t.Hour.tmod 12)
      = ((twelveHour n : Nat) : Int) := by
    unfold twelveHour
    rw [hmod]
    by_cases h0 : n % 12 = 0
    · simp [h0]
    · have hz : ¬ (((n % 12 : Nat) : Int) = 0) := by omega
      rw [if_neg hz, if_neg h0]
  have hrange : 1 ≤ twelveHour n ∧ twelveHour n ≤ 12 := by
    unfold twelveHour
    split_ifs <;> omega
  rw [htoNat]
  refine ⟨?_, RuneCountInString_twoGlyphs lc hnum _, hrange.1, hrange.2, ?_, ?_⟩
  · have h := padded_two lc hnum ((twelveHour n : Nat) : Int) (by omega) (by omega)
    rw [Int.toNat_ofNat] at h
    rw [Strftime_perI]
    simpa [perI, hval] using h
  · intro h
    unfold twelveHour
    have : n % 12 = 0 := by omega
    simp [this]
  · intro h0 h12
    unfold twelveHour
    have : ¬ n % 12 = 0 := by omega
    rw [if_neg this, hn]
    omega

theorem perI_twelve_hour_witness :
    oneCharNumbers english ∧
      Strftime english 0 (str "%I") refTime = .ok (str "03") ∧
      Strftime english 0 (str "%I") newYear2006 = .ok (str "12") := by
  have hnum : oneCharNumbers english := Or.inl rfl
  have h₁ := perI_twelve_hour english 0 refTime hnum (by decide)
  have h₂ := perI_twelve_hour english 0 newYear2006 hnum (by decide)
  refine ⟨hnum, ?_, ?_⟩
  · rw [h₁.1]
    decide
  · rw [h₂.1]
    decide

/-! ## Negative numbers -/

theorem translateLoop_nonpos (lc : localeData) (fuel : Nat) (i : Int) (s : GoString)
    (h : i ≤ 0) : translateLoop lc fuel i s = .ok s := by
  cases fuel with
  | zero => rfl
  | succ n =>
    have hn : ¬ i > 0 := by omega
    simp [translateLoop, hn]

theorem Strftime_perY (lc : localeData) (depth : Nat) (t : Time) :
    Strftime lc depth (str "%Y") t = translateNumber lc t.Year := by
  have e : str "%Y" = [37, 89] := by decide
  rw [e]
  apply Strftime_dispatch
  intro self
  simp [parseDirective, str, perY]

/-- C20: outside its domain the numeral translator loses the number. For a
negative `i` and a locale with a non-empty numeral table the loop of
`translateNumber` is not entered (whatever the number of iterations it is
allowed) and the result is the empty string; so "%Y" renders nothing for a year
below 0 under such a locale. -/
theorem translateNumber_negative (lc : localeData) (i : Int) (hneg : i < 0)
    (hnum : lc.Numbers ≠ []) :
    translateNumber lc i = .ok [] ∧
      (∀ fuel : Nat, translateLoop lc fuel i [] = .ok []) ∧
      (∀ (depth : Nat) (t : Time), t.Year = i →
        Strftime lc depth (str "%Y") t = .ok []) := by
  have hlen : ¬ lc.Numbers.length = 0 := by
    intro h
    exact hnum (List.length_eq_zero.mp h)
  have hi : ¬ i = 0 := by omega
  have hT : translateNumber lc i = .ok [] := by
    unfold translateNumber
    rw [if_neg hlen, if_neg hi]
    exact translateLoop_nonpos lc _ i [] (by omega)
  refine ⟨hT, fun fuel => translateLoop_nonpos lc fuel i [] (by omega), ?_⟩
  intro depth t ht
  rw [Strftime_perY, ht, hT]

theorem translateNumber_negative_witness :
    (-5 : Int) < 0 ∧ arabic.Numbers ≠ [] ∧
      translateNumber arabic (-5) = .ok [] ∧
      Strftime arabic 0 (str "%Y") yearMinusFive = .ok [] := by
  have h := translateNumber_negative arabic (-5) (by decide) (by decide)
  exact ⟨by decide, by decide, h.1, h.2.2 0 yearMinusFive rfl⟩

/-! ## The scanner, token by token -/

theorem Strftime_nested (lc : localeData) (depth : Nat) :
    Strftime lc depth = StrftimeBody lc (nested lc depth) := by
  cases depth <;> rfl

theorem StrftimeBody_scan (lc : localeData) (self : Scanner) (format : GoString) (t : Time) :
    StrftimeBody lc self format t =
      scanLoop (fun direc => parseDirective lc self direc t) format [] := by
  unfold StrftimeBody
  cases format with
  | nil => simp [scanLoop]
  | cons c rest => simp

theorem scanLoop_buf (f : GoString → Except Fault GoString) :
    ∀ (n : Nat) (s : GoString), s.length ≤ n → ∀ buf : GoString,
      scanLoop f s buf = (scanLoop f s []).map (fun out => buf ++ out) := by
  intro n
  induction n with
  | zero =>
    intro s hs buf
    have : s = [] := List.length_eq_zero.mp (by omega)
    subst this
    simp [scanLoop, Except.map]
  | succ n ih =>
    intro s hs buf
    match s, hs with
    | [], _ => simp [scanLoop, Except.map]
    | [c], _ => simp [scanLoop, Except.map]
    | c :: d :: rest, hs =>
      simp only [List.length_cons] at hs
      by_cases hc : c = 37
      · subst hc
        rw [scanLoop_directive, scanLoop_directive]
        cases hf : f [37, d] with
        | error e => simp [Except.bind, Except.map]
        | ok out =>
          simp only [Except.bind]
          rw [ih rest (by omega) (buf ++ out), ih rest (by omega) ([] ++ out)]
          cases scanLoop f rest [] <;> simp [Except.map]
      · rw [scanLoop_literal f c _ buf hc, scanLoop_literal f c _ [] hc,
          ih (d :: rest) (by simp only [List.length_cons]; omega) (buf ++ [c]),
          ih (d :: rest) (by simp only [List.length_cons]; omega) ([] ++ [c])]
        cases scanLoop f (d :: rest) [] <;> simp [Except.map]

theorem Strftime_token (lc : localeData) (depth : Nat) (c : Nat) (rest : GoString) (t : Time) :
    Strftime lc depth (37 :: c :: rest) t =
      (do
        let out ← parseDirective lc (nested lc depth) [37, c] t
        let tail ← Strftime lc depth rest t
        pure (out ++ tail)) := by
  rw [Strftime_nested, StrftimeBody_scan, StrftimeBody_scan, scanLoop_directive]
  cases parseDirective lc (nested lc depth) [37, c] t with
  | error e => rfl
  | ok out =>
    simp only [Except.bind, bind]
    rw [scanLoop_buf _ _ rest (le_refl _) ([] ++ out)]
    cases scanLoop (fun direc => parseDirective lc (nested lc depth) direc t) rest [] <;>
      simp [Except.map, pure, Except.pure]

theorem Strftime_literal_run (lc : localeData) (depth : Nat) (w rest : GoString) (t : Time)
    (hw : 37 ∉ w) :
    Strftime lc depth (w ++ rest) t = (Strftime lc depth rest t).map (fun tail => w ++ tail) := by
  rw [Strftime_nested, StrftimeBody_scan, StrftimeBody_scan]
  induction w with
  | nil =>
    rw [List.nil_append]
    generalize scanLoop (fun direc => parseDirective lc (nested lc depth) direc t) rest [] = r
    cases r <;> simp [Except.map]
  | cons c tl ih =>
    have hc : c ≠ 37 := fun h => hw (by simp [h])
    have htl : 37 ∉ tl := fun h => hw (by simp [h])
    rw [List.cons_append, scanLoop_literal _ c _ [] hc,
      scanLoop_buf _ _ (tl ++ rest) (le_refl _) ([] ++ [c]), ih htl]
    generalize scanLoop (fun direc => parseDirective lc (nested lc depth) direc t) rest [] = r
    cases r <;> simp [Except.map]

/-- C18: the scanner is one pass from left to right that takes two bytes per
directive. A '%' and the byte `c` after it are dispatched together and the
scan goes on after them: the outcome of `Strftime` on "%c" followed by `rest`
is the result of `parseDirective` on "%c" followed by the result of `Strftime`
on `rest`; a byte other than '%' (and any run of such bytes, so any character
other than '%') is copied in front of the result of the rest. When the
character after '%' takes several bytes, none of them a directive letter or a
'%', the same holds with the whole character in the argument of
`parseDirective`. So the byte after a '%' never starts a directive. -/
theorem scanner_single_pass (lc : localeData) (depth : Nat) (t : Time) (rest : GoString) :
    (∀ c : Nat, Strftime lc depth (37 :: c :: rest) t =
        (do
          let out ← parseDirective lc (nested lc depth) [37, c] t
          let tail ← Strftime lc depth rest t
          pure (out ++ tail))) ∧
      (∀ c : Nat, c ≠ 37 →
        Strftime lc depth (c :: rest) t = (Strftime lc depth rest t).map (fun tail => c :: tail)) ∧
      (∀ w : GoString, 37 ∉ w →
        Strftime lc depth (w ++ rest) t =
          (Strftime lc depth rest t).map (fun tail => w ++ tail)) ∧
      (∀ (c : Nat) (more : GoString), c ∉ directiveLetters → 37 ∉ more →
        Strftime lc depth (37 :: c :: (more ++ rest)) t =
          (do
            let out ← parseDirective lc (nested lc depth) (37 :: c :: more) t
            let tail ← Strftime lc depth rest t
            pure (out ++ tail))) := by
  refine ⟨fun c => Strftime_token lc depth c rest t, fun c hc => ?_,
    fun w hw => Strftime_literal_run lc depth w rest t hw, fun c more hc hmore => ?_⟩
  · have h := Strftime_literal_run lc depth [c] rest t (by simpa using hc.symm)
    simpa using h
  · rw [Strftime_token, parseDirective_unknown lc _ t c [] hc,
      parseDirective_unknown lc _ t c more hc, Strftime_literal_run lc depth more rest t hmore]
    cases Strftime lc depth rest t <;> simp [bind, Except.bind, Except.map, pure, Except.pure]

theorem scanner_single_pass_witness :
    Strftime english 0 (str "%%d") refTime = .ok (str "%d") ∧
      Strftime english 0 (str "%d%") refTime = .ok (str "02%") := by
  have h₁ := (scanner_single_pass english 0 refTime (str "d")).1 37
  have h₂ := (scanner_single_pass english 0 refTime (str "%")).1 100
  refine ⟨?_, ?_⟩
  · have e : str "%%d" = 37 :: 37 :: str "d" := by decide
    rw [e, h₁]
    decide
  · have e : str "%d%" = 37 :: 100 :: str "%" := by decide
    rw [e, h₂]
    decide

/-! ## End-to-end rendering -/

theorem twoGlyphs_ascii (lc : localeData) (hnum : lc.Numbers = []) (n : Nat) :
    twoGlyphs lc n = twoDigits n := by
  simp [twoGlyphs, twoDigits, digitGlyph, hnum]

theorem index_int_ok (xs : List GoString) (i : Int) (h0 : 0 ≤ i) (h : i < xs.length) :
    index xs i = .ok (xs.getD i.toNat []) := by
  obtain ⟨n, rfl⟩ := Int.eq_ofNat_of_zero_le h0
  rw [Int.toNat_ofNat]
  exact index_ok xs n (by omega)

/-- C16: end-to-end rendering with name lookup. For a time with in-range
fields and a locale with 7 short weekday names, 12 short month names and no
numeral table, the template "%a %b %d %Y %H:%M:%S" renders the short name of
the weekday, the short name of the month (index month - 1), the day in two
digits, the year in decimal and the hour, minute and second in two digits
each, with the separators of the template. -/
theorem end_to_end_rendering (lc : localeData) (depth : Nat) (t : Time)
    (hsd : lc.ShortDays.length = 7) (hsm : lc.ShortMonths.length = 12)
    (hnum : lc.Numbers = [])
    (hwd : 0 ≤ t.Weekday ∧ t.Weekday ≤ 6) (hmon : 1 ≤ t.Month ∧ t.Month ≤ 12)
    (hday : 1 ≤ t.Day ∧ t.Day ≤ 31) (hyear : 0 ≤ t.Year)
    (hhour : 0 ≤ t.Hour ∧ t.Hour ≤ 23) (hmin : 0 ≤ t.Minute ∧ t.Minute ≤ 59)
    (hsec : 0 ≤ t.Second ∧ t.Second ≤ 59) :
    Strftime lc depth (str "%a %b %d %Y %H:%M:%S") t =
      .ok (lc.ShortDays.getD t.Weekday.toNat [] ++ str " " ++
        lc.ShortMonths.getD (t.Month.toNat - 1) [] ++ str " " ++
        twoDigits t.Day.toNat ++ str " " ++ asciiDecimal t.Year.toNat ++ str " " ++
        twoDigits t.Hour.toNat ++ str ":" ++ twoDigits t.Minute.toNat ++ str ":" ++
        twoDigits t.Second.toNat) := by
  have hone : oneCharNumbers lc := Or.inl hnum
  have ha : pera lc t = .ok (lc.ShortDays.getD t.Weekday.toNat []) :=
    index_int_ok _ _ hwd.1 (by omega)
  have hb : perb lc t = .ok (lc.ShortMonths.getD (t.Month.toNat - 1) []) := by
    have h := index_int_ok lc.ShortMonths (t.Month - 1) (by omega) (by omega)
    have e : (t.Month - 1).toNat = t.Month.toNat - 1 := by omega
    rw [e] at h
    exact h
  have hd : perd lc t = .ok (twoDigits t.Day.toNat) := by
    rw [← twoGlyphs_ascii lc hnum]
    exact padded_two lc hone t.Day (by omega) (by omega)
  have hH : perH lc t = .ok (twoDigits t.Hour.toNat) := by
    rw [← twoGlyphs_ascii lc hnum]
    exact padded_two lc hone t.Hour (by omega) (by omega)
  have hM : perM lc t = .ok (twoDigits t.Minute.toNat) := by
    rw [← twoGlyphs_ascii lc hnum]
    exact padded_two lc hone t.Minute (by omega) (by omega)
  have hS : perS lc t = .ok (twoDigits t.Second.toNat) := by
    rw [← twoGlyphs_ascii lc hnum]
    exact padded_two lc hone t.Second (by omega) (by omega)
  have hY : perY lc t = .ok (asciiDecimal t.Year.toNat) := by
    obtain ⟨n, hn⟩ := Int.eq_ofNat_of_zero_le hyear
    unfold perY
    rw [hn, Int.toNat_ofNat]
    exact translateNumber_ascii lc n hnum
  rw [Strftime_nested, StrftimeBody_scan]
  simp [str, scanLoop, parseDirective, ha, hb, hd, hH, hM, hS, hY, bind, Except.bind]

theorem end_to_end_rendering_witness :
    Strftime english 0 (str "%a %b %d %Y %H:%M:%S") refTime = .ok refRendering := by
  have h := end_to_end_rendering english 0 refTime (by decide) (by decide) rfl (by decide)
    (by decide) (by decide) (by decide) (by decide) (by decide) (by decide)
  rw [h, ← FormatUint_eq]
  decide

/-! ## Totality of the rendering path -/

theorem translateNumber_total (lc : localeData)
    (hnum : lc.Numbers.length = 0 ∨ lc.Numbers.length = 10) (i : Int) :
    ∃ r, translateNumber lc i = .ok r := by
  by_cases hi : 0 ≤ i
  · obtain ⟨n, rfl⟩ := Int.eq_ofNat_of_zero_le hi
    rcases hnum with h0 | h10
    · exact ⟨_, translateNumber_ascii lc n (List.length_eq_zero.mp h0)⟩
    · exact ⟨_, translateNumber_nat lc n h10⟩
  · rcases hnum with h0 | h10
    · exact ⟨sprintf_d i, by simp [translateNumber, h0]⟩
    · have hne : ¬ lc.Numbers.length = 0 := by omega
      have hz : ¬ i = 0 := by omega
      refine ⟨[], ?_⟩
      unfold translateNumber
      rw [if_neg hne, if_neg hz]
      exact translateLoop_nonpos lc _ i [] (by omega)

theorem padded_total (lc : localeData)
    (hnum : lc.Numbers.length = 0 ∨ lc.Numbers.length = 10) (i w : Int) :
    ∃ r, (do let n ← translateNumber lc i; pure (pad lc n w)) = Except.ok r := by
  obtain ⟨r, hr⟩ := translateNumber_total lc hnum i
  exact ⟨pad lc r w, by simp [hr, bind, Except.bind, pure, Except.pure]⟩

theorem subTemplate_none (lc : localeData) (d : Nat) (h : subTemplate lc d = none) :
    d ≠ 99 ∧ d ≠ 114 ∧ d ≠ 120 ∧ d ≠ 88 ∧ d ≠ 68 ∧ d ≠ 70 ∧ d ≠ 82 ∧ d ≠ 84 := by
  unfold subTemplate localeTemplate fixedTemplate at h
  refine ⟨?_, ?_, ?_, ?_, ?_, ?_, ?_, ?_⟩ <;> intro hd <;> subst hd <;> simp at h

theorem parseDirective_composite (lc : localeData) (self : Scanner) (d : Nat) (t : Time)
    (sub : GoString) (h : subTemplate lc d = some sub) :
    parseDirective lc self [37, d] t = self sub t := by
  unfold subTemplate localeTemplate fixedTemplate at h
  by_cases h99 : d = 99
  · subst h99
    simp at h
    simp [parseDirective, str, perc, h]
  by_cases h114 : d = 114
  · subst h114
    simp at h
    simp [parseDirective, str, perr, h]
  by_cases h120 : d = 120
  · subst h120
    simp at h
    simp [parseDirective, str, perx, h]
  by_cases h88 : d = 88
  · subst h88
    simp at h
    simp [parseDirective, str, perX, h]
  by_cases h68 : d = 68
  · subst h68
    simp at h
    simp [parseDirective, str, perD, ← h]
  by_cases h70 : d = 70
  · subst h70
    simp at h
    simp [parseDirective, str, perF, ← h]
  by_cases h82 : d = 82
  · subst h82
    simp at h
    simp [parseDirective, str, perR, ← h]
  by_cases h84 : d = 84
  · subst h84
    simp at h
    simp [parseDirective, str, perT, ← h]
  simp [h99, h114, h120, h88, h68, h70, h82, h84] at h

theorem parseDirective_plain_eq (lc : localeData) (self self' : Scanner) (d : Nat) (t : Time)
    (h : subTemplate lc d = none) :
    parseDirective lc self [37, d] t = parseDirective lc self' [37, d] t := by
  obtain ⟨h1, h2, h3, h4, h5, h6, h7, h8⟩ := subTemplate_none lc d h
  simp [parseDirective, str, h1, h2, h3, h4, h5, h6, h7, h8]

theorem ite_total {c : Prop} [Decidable c] {a b : Except Fault GoString}
    (ha : ∃ r, a = .ok r) (hb : ∃ r, b = .ok r) : ∃ r, (if c then a else b) = .ok r := by
  split_ifs
  · exact ha
  · exact hb

theorem parseDirective_plain_total (lc : localeData) (self : Scanner) (d : Nat) (t : Time)
    (hinv : lengthInvariant lc) (hwd : 0 ≤ t.Weekday ∧ t.Weekday ≤ 6)
    (hmon : 1 ≤ t.Month ∧ t.Month ≤ 12) (h : subTemplate lc d = none) :
    ∃ r, parseDirective lc self [37, d] t = .ok r := by
  obtain ⟨h1, h2, h3, h4, h5, h6, h7, h8⟩ := subTemplate_none lc d h
  obtain ⟨hsd, hdd, hsm, hmm, hap, hnum⟩ := hinv
  have hT := translateNumber_total lc hnum
  have hP := padded_total lc hnum
  have ha : ∃ r, pera lc t = .ok r := ⟨_, index_int_ok _ _ hwd.1 (by omega)⟩
  have hA : ∃ r, perA lc t = .ok r := ⟨_, index_int_ok _ _ hwd.1 (by omega)⟩
  have hb : ∃ r, perb lc t = .ok r := ⟨_, index_int_ok _ _ (by omega) (by omega)⟩
  have hB : ∃ r, perB lc t = .ok r := ⟨_, index_int_ok _ _ (by omega) (by omega)⟩
  have hp : ∃ r, perp lc t = .ok r := by
    unfold perp
    split_ifs
    · exact ⟨_, index_int_ok _ 0 (by omega) (by omega)⟩
    · exact ⟨_, index_int_ok _ 1 (by omega) (by omega)⟩
  have he : ∃ r, pere lc t = .ok r := by
    unfold pere
    obtain ⟨r, hr⟩ := hT t.Day
    by_cases hd : t.Day < 10
    · exact ⟨str " " ++ r, by simp [hd, hr, bind, Except.bind, pure, Except.pure]⟩
    · exact ⟨r, by simp [hd, hr]⟩
  have hu : ∃ r, peru lc t = .ok r := by
    unfold peru
    by_cases hd : t.Weekday = 0
    · simpa [hd] using hT 7
    · simpa [hd] using hT t.Weekday
  have hpd : parseDirective lc self [37, d] t =
      if d = 97 then pera lc t
      else if d = 65 then perA lc t
      else if d = 98 then perb lc t
      else if d = 66 then perB lc t
      else if d = 67 then perC lc t
      else if d = 100 then perd lc t
      else if d = 101 then pere lc t
      else if d = 103 then perg lc t
      else if d = 71 then perG lc t
      else if d = 72 then perH lc t
      else if d = 73 then perI lc t
      else if d = 106 then perj lc t
      else if d = 109 then perm lc t
      else if d = 77 then perM lc t
      else if d = 110 then pern lc t
      else if d = 112 then perp lc t
      else if d = 83 then perS lc t
      else if d = 116 then pert lc t
      else if d = 117 then peru lc t
      else if d = 85 then perU lc t
      else if d = 86 then perV lc t
      else if d = 119 then perw lc t
      else if d = 87 then perW lc t
      else if d = 121 then pery lc t
      else if d = 89 then perY lc t
      else if d = 122 then perz lc t
      else if d = 90 then perZ lc t
      else if d = 37 then perper lc t
      else .ok [37, d] := by
    simp [parseDirective, str, h1, h2, h3, h4, h5, h6, h7, h8]
  rw [hpd]
  exact ite_total ha <| ite_total hA <| ite_total hb <| ite_total hB <|
    ite_total (hT _) <| ite_total (hP _ _) <| ite_total he <| ite_total (hP _ _) <|
    ite_total (hP _ _) <| ite_total (hP _ _) <| ite_total (hP _ _) <| ite_total (hP _ _) <|
    ite_total (hP _ _) <| ite_total (hP _ _) <| ite_total ⟨_, rfl⟩ <| ite_total hp <|
    ite_total (hP _ _) <| ite_total ⟨_, rfl⟩ <| ite_total hu <| ite_total (hP _ _) <|
    ite_total (hP _ _) <| ite_total (hT _) <| ite_total (hP _ _) <| ite_total (hP _ _) <|
    ite_total (hT _) <| ite_total ⟨_, rfl⟩ <| ite_total ⟨_, rfl⟩ <| ite_total ⟨_, rfl⟩ <|
    ⟨_, rfl⟩

theorem scanLoop_total (f : GoString → Except Fault GoString) :
    ∀ (n : Nat) (s : GoString), s.length ≤ n →
      (∀ d ∈ directives s, ∃ r, f [37, d] = .ok r) →
      ∀ buf : GoString, ∃ out, scanLoop f s buf = .ok out := by
  intro n
  induction n with
  | zero =>
    intro s hs _ buf
    have : s = [] := List.length_eq_zero.mp (by omega)
    subst this
    exact ⟨buf, rfl⟩
  | succ n ih =>
    intro s hs hd buf
    match s, hs, hd with
    | [], _, _ => exact ⟨buf, rfl⟩
    | [c], _, _ => exact ⟨buf ++ [c], rfl⟩
    | c :: d :: rest, hs, hd =>
      simp only [List.length_cons] at hs
      by_cases hc : c = 37
      · subst hc
        have hdir : directives (37 :: d :: rest) = d :: directives rest := by
          simp [directives]
        rw [hdir] at hd
        obtain ⟨r, hr⟩ := hd d (by simp)
        obtain ⟨out, hout⟩ := ih rest (by omega)
          (fun x hx => hd x (List.mem_cons_of_mem d hx)) (buf ++ r)
        exact ⟨out, by rw [scanLoop_directive, hr]; exact hout⟩
      · have hdir : directives (c :: d :: rest) = directives (d :: rest) := by
          simp [directives, hc]
        rw [hdir] at hd
        obtain ⟨out, hout⟩ := ih (d :: rest) (by simp only [List.length_cons]; omega) hd
          (buf ++ [c])
        exact ⟨out, by rw [scanLoop_literal f c _ buf hc]; exact hout⟩

theorem scanLoop_mono (f g : GoString → Except Fault GoString)
    (hfg : ∀ (d : Nat) (r : GoString), f [37, d] = .ok r → g [37, d] = .ok r) :
    ∀ (n : Nat) (s : GoString), s.length ≤ n → ∀ buf out : GoString,
      scanLoop f s buf = .ok out → scanLoop g s buf = .ok out := by
  intro n
  induction n with
  | zero =>
    intro s hs buf out h
    have : s = [] := List.length_eq_zero.mp (by omega)
    subst this
    simpa [scanLoop] using h
  | succ n ih =>
    intro s hs buf out h
    match s, hs, h with
    | [], _, h => simpa [scanLoop] using h
    | [c], _, h => simpa [scanLoop] using h
    | c :: d :: rest, hs, h =>
      simp only [List.length_cons] at hs
      by_cases hc : c = 37
      · subst hc
        rw [scanLoop_directive] at h ⊢
        cases hf : f [37, d] with
        | error e => rw [hf] at h; simp [Except.bind] at h
        | ok r =>
          rw [hf] at h
          rw [hfg d r hf]
          simp only [Except.bind] at h ⊢
          exact ih rest (by omega) _ _ h
      · rw [scanLoop_literal f c _ buf hc] at h
        rw [scanLoop_literal g c _ buf hc]
        exact ih (d :: rest) (by simp only [List.length_cons]; omega) _ _ h

theorem parseDirective_mono (lc : localeData) (self self' : Scanner) (t : Time)
    (hss : ∀ s out, self s t = .ok out → self' s t = .ok out) (d : Nat) (r : GoString)
    (h : parseDirective lc self [37, d] t = .ok r) :
    parseDirective lc self' [37, d] t = .ok r := by
  cases hsub : subTemplate lc d with
  | none => rw [← parseDirective_plain_eq lc self self' d t hsub]; exact h
  | some sub =>
    rw [parseDirective_composite lc self d t sub hsub] at h
    rw [parseDirective_composite lc self' d t sub hsub]
    exact hss sub r h

theorem nested_mono (lc : localeData) (t : Time) :
    ∀ (depth : Nat) (s out : GoString),
      nested lc depth s t = .ok out → nested lc (depth + 1) s t = .ok out := by
  intro depth
  induction depth with
  | zero =>
    intro s out h
    simp [nested] at h
  | succ n ih =>
    intro s out h
    simp only [nested] at h ⊢
    rw [Strftime_nested, StrftimeBody_scan] at h ⊢
    exact scanLoop_mono _ _ (parseDirective_mono lc _ _ t ih) _ s (le_refl _) _ _ h

theorem Strftime_mono (lc : localeData) (t : Time) (s out : GoString) (depth : Nat)
    (h : Strftime lc depth s t = .ok out) :
    ∀ more : Nat, Strftime lc (depth + more) s t = .ok out := by
  intro more
  induction more with
  | zero => exact h
  | succ m ih => exact nested_mono lc t (depth + m + 1) s out ih

theorem Strftime_fits (lc : localeData) (t : Time) (hinv : lengthInvariant lc)
    (hwd : 0 ≤ t.Weekday ∧ t.Weekday ≤ 6) (hmon : 1 ≤ t.Month ∧ t.Month ≤ 12) :
    ∀ (k : Nat) (s : GoString), fits lc k s = true → ∃ out, Strftime lc k s t = .ok out := by
  intro k
  induction k with
  | zero =>
    intro s hs
    rw [Strftime_nested, StrftimeBody_scan]
    apply scanLoop_total _ _ s (le_refl _)
    intro d hd
    simp only [fits, List.all_eq_true] at hs
    have hnone : subTemplate lc d = none := by
      have := hs d hd
      cases hsub : subTemplate lc d with
      | none => rfl
      | some x => rw [hsub] at this; simp at this
    exact parseDirective_plain_total lc _ d t hinv hwd hmon hnone
  | succ k ih =>
    intro s hs
    rw [Strftime_nested, StrftimeBody_scan]
    apply scanLoop_total _ _ s (le_refl _)
    intro d hd
    simp only [fits, List.all_eq_true] at hs
    have hthis := hs d hd
    cases hsub : subTemplate lc d with
    | none => exact parseDirective_plain_total lc _ d t hinv hwd hmon hsub
    | some sub =>
      rw [hsub] at hthis
      obtain ⟨out, hout⟩ := ih sub hthis
      exact ⟨out, by rw [parseDirective_composite lc _ d t sub hsub]; exact hout⟩

theorem fits_fixed (lc : localeData) (k d : Nat) (sub : GoString)
    (h : fixedTemplate d = some sub) : fits lc k sub = true := by
  unfold fixedTemplate at h
  split_ifs at h <;> simp at h <;> subst h <;> cases k <;>
    simp [fits, directives, str, subTemplate, localeTemplate, fixedTemplate]

theorem localeTemplate_letter (lc : localeData) (d : Nat) (sub : GoString)
    (h : localeTemplate lc d = some sub) : d ∈ [99, 114, 120, 88] := by
  unfold localeTemplate at h
  split_ifs at h <;> simp_all

theorem not_fits_succ (lc : localeData) (k : Nat) (s : GoString)
    (h : fits lc (k + 1) s = false) :
    ∃ d ∈ directives s, ∃ sub, localeTemplate lc d = some sub ∧ fits lc k sub = false := by
  by_contra hcon
  push_neg at hcon
  have hfit : fits lc (k + 1) s = true := by
    simp only [fits, List.all_eq_true]
    intro d hd
    cases hsub : subTemplate lc d with
    | none => rfl
    | some sub =>
      simp only
      unfold subTemplate at hsub
      cases hloc : localeTemplate lc d with
      | none =>
        rw [hloc] at hsub
        exact fits_fixed lc k d sub hsub
      | some sub' =>
        rw [hloc] at hsub
        simp only [Option.some.injEq] at hsub
        subst hsub
        have := hcon d hd sub' hloc
        simpa using this
  rw [hfit] at h
  exact Bool.noConfusion h

theorem fits_of_acyclic (lc : localeData) (hacyc : acyclicTemplates lc) (s : GoString) :
    fits lc 5 s = true := by
  by_contra hne
  have h5 : fits lc 5 s = false := by simpa using hne
  obtain ⟨d1, -, s1, hl1, hf1⟩ := not_fits_succ lc 4 s h5
  obtain ⟨d2, hm2, s2, hl2, hf2⟩ := not_fits_succ lc 3 s1 hf1
  obtain ⟨d3, hm3, s3, hl3, hf3⟩ := not_fits_succ lc 2 s2 hf2
  obtain ⟨d4, hm4, s4, hl4, hf4⟩ := not_fits_succ lc 1 s3 hf3
  obtain ⟨d5, hm5, s5, hl5, -⟩ := not_fits_succ lc 0 s4 hf4
  have p12 : Relation.TransGen (templateUses lc) d1 d2 := .single ⟨s1, hl1, hm2⟩
  have p23 : Relation.TransGen (templateUses lc) d2 d3 := .single ⟨s2, hl2, hm3⟩
  have p34 : Relation.TransGen (templateUses lc) d3 d4 := .single ⟨s3, hl3, hm4⟩
  have p45 : Relation.TransGen (templateUses lc) d4 d5 := .single ⟨s4, hl4, hm5⟩
  have p13 := p12.trans p23
  have p14 := p13.trans p34
  have p15 := p14.trans p45
  have p24 := p23.trans p34
  have p25 := p24.trans p45
  have p35 := p34.trans p45
  by_cases e12 : d1 = d2
  · subst e12; exact hacyc _ p12
  by_cases e13 : d1 = d3
  · subst e13; exact hacyc _ p13
  by_cases e14 : d1 = d4
  · subst e14; exact hacyc _ p14
  by_cases e15 : d1 = d5
  · subst e15; exact hacyc _ p15
  by_cases e23 : d2 = d3
  · subst e23; exact hacyc _ p23
  by_cases e24 : d2 = d4
  · subst e24; exact hacyc _ p24
  by_cases e25 : d2 = d5
  · subst e25; exact hacyc _ p25
  by_cases e34 : d3 = d4
  · subst e34; exact hacyc _ p34
  by_cases e35 : d3 = d5
  · subst e35; exact hacyc _ p35
  by_cases e45 : d4 = d5
  · subst e45; exact hacyc _ p45
  have hnd : [d1, d2, d3, d4, d5].Nodup := by
    simp [e12, e13, e14, e15, e23, e24, e25, e34, e35, e45]
  have hsub : [d1, d2, d3, d4, d5] ⊆ [99, 114, 120, 88] := by
    intro x hx
    simp only [List.mem_cons, List.mem_singleton, List.not_mem_nil, or_false] at hx
    rcases hx with rfl | rfl | rfl | rfl | rfl
    · exact localeTemplate_letter lc _ s1 hl1
    · exact localeTemplate_letter lc _ s2 hl2
    · exact localeTemplate_letter lc _ s3 hl3
    · exact localeTemplate_letter lc _ s4 hl4
    · exact localeTemplate_letter lc _ s5 hl5
  have hlen := (List.subperm_of_subset hnd hsub).length_le
  simp at hlen

theorem acyclic_of_rank (lc : localeData) (rank : Nat → Nat)
    (h : ∀ a b, templateUses lc a b → (localeTemplate lc b).isSome = true → rank b < rank a) :
    acyclicTemplates lc := by
  have key : ∀ x y, Relation.TransGen (templateUses lc) x y →
      (localeTemplate lc y).isSome = true → rank y < rank x := by
    intro x y hxy
    induction hxy with
    | single hab => exact h _ _ hab
    | @tail b c _ hbc ih =>
      intro hy
      have hb : (localeTemplate lc b).isSome = true := by
        obtain ⟨sb, hsb, -⟩ := hbc
        rw [hsb]
        rfl
      exact lt_trans (h b c hbc hy) (ih hb)
  intro a haa
  obtain ⟨b, ⟨sa, hsa, -⟩, -⟩ := Relation.TransGen.head'_iff.mp haa
  have ha : (localeTemplate lc a).isSome = true := by rw [hsa]; rfl
  exact lt_irrefl _ (key a a haa ha)

/-- C17: the rendering path is total. For every template, every time whose
weekday is in 0..6 and whose month is in 1..12 (the fields that index the
locale arrays; the other fields index nothing), and every locale that meets
the length invariant and whose composite templates `DateTime`, `Date`, `Time`
and `TimeAMPM` do not reach themselves through %c, %r, %x and %X, `Strftime`
returns a string, the same whenever the stack has room for 5 nested calls: it
neither indexes out of range nor exhausts the stack. -/
theorem Strftime_total (lc : localeData) (template : GoString) (t : Time)
    (hinv : lengthInvariant lc) (hacyc : acyclicTemplates lc)
    (hwd : 0 ≤ t.Weekday ∧ t.Weekday ≤ 6) (hmon : 1 ≤ t.Month ∧ t.Month ≤ 12) :
    ∃ out, ∀ depth : Nat, 5 ≤ depth → Strftime lc depth template t = .ok out := by
  obtain ⟨out, hout⟩ :=
    Strftime_fits lc t hinv hwd hmon 5 template (fits_of_acyclic lc hacyc template)
  refine ⟨out, fun depth hd => ?_⟩
  have h := Strftime_mono lc t template out 5 hout (depth - 5)
  have e : 5 + (depth - 5) = depth := by omega
  rw [e] at h
  exact h

theorem nestedTemplates_acyclic : acyclicTemplates nestedTemplates := by
  apply acyclic_of_rank nestedTemplates
    (fun d => if d = 99 then 3 else if d = 88 then 2 else if d = 120 then 1
      else if d = 114 then 1 else 0)
  intro a b hab hb
  obtain ⟨s, hs, hmem⟩ := hab
  unfold localeTemplate at hs
  split_ifs at hs with h99 h114 h120 h88
  · simp only [Option.some.injEq] at hs
    subst hs
    subst h99
    have hd : directives nestedTemplates.DateTime = [120, 88] := by decide
    rw [hd] at hmem
    simp only [List.mem_cons, List.mem_singleton, List.not_mem_nil, or_false] at hmem
    rcases hmem with rfl | rfl <;> decide
  · simp only [Option.some.injEq] at hs
    subst hs
    subst h114
    have hd : directives nestedTemplates.TimeAMPM = [73, 77, 83, 112] := by decide
    rw [hd] at hmem
    simp only [List.mem_cons, List.mem_singleton, List.not_mem_nil, or_false] at hmem
    rcases hmem with rfl | rfl | rfl | rfl <;> simp [localeTemplate] at hb
  · simp only [Option.some.injEq] at hs
    subst hs
    subst h120
    have hd : directives nestedTemplates.Date = [68] := by decide
    rw [hd] at hmem
    simp only [List.mem_singleton] at hmem
    subst hmem
    simp [localeTemplate] at hb
  · simp only [Option.some.injEq] at hs
    subst hs
    subst h88
    have hd : directives nestedTemplates.Time = [114] := by decide
    rw [hd] at hmem
    simp only [List.mem_singleton] at hmem
    subst hmem
    decide

theorem Strftime_total_witness :
    lengthInvariant nestedTemplates ∧ acyclicTemplates nestedTemplates ∧
      Strftime nestedTemplates 7 (str "%c") refTime = .ok (str "01/02/06 03:04:05 PM") := by
  have hinv : lengthInvariant nestedTemplates := by
    unfold lengthInvariant
    decide
  obtain ⟨out, hout⟩ := Strftime_total nestedTemplates (str "%c") refTime hinv
    nestedTemplates_acyclic (by decide) (by decide)
  refine ⟨hinv, nestedTemplates_acyclic, ?_⟩
  have h5 := hout 5 (le_refl 5)
  have e5 : Strftime nestedTemplates 5 (str "%c") refTime = .ok (str "01/02/06 03:04:05 PM") := by
    decide
  rw [e5] at h5
  rw [hout 7 (by omega), ← h5]

theorem selfReferring_exhausts (t : Time) (hwd : 0 ≤ t.Weekday ∧ t.Weekday ≤ 6) :
    ∀ depth : Nat, Strftime selfReferring depth (str "%c") t = .error .stackExhausted := by
  have ha : ∃ r, pera selfReferring t = .ok r :=
    ⟨_, index_int_ok _ _ hwd.1 (by
      have : selfReferring.ShortDays.length = 7 := by decide
      omega)⟩
  obtain ⟨r, hr⟩ := ha
  have hstep : ∀ self : Scanner, self (str "%c") t = .error .stackExhausted →
      self (str "%a %c") t = .error .stackExhausted →
      StrftimeBody selfReferring self (str "%c") t = .error .stackExhausted ∧
        StrftimeBody selfReferring self (str "%a %c") t = .error .stackExhausted := by
    intro self h1 h2
    have e1 : str "%c" = [37, 99] := by decide
    have e2 : str "%a %c" = [37, 97, 32, 37, 99] := by decide
    have hD : selfReferring.DateTime = [37, 97, 32, 37, 99] := by decide
    rw [e1] at h1 ⊢
    rw [e2] at h2 ⊢
    constructor
    · simp [StrftimeBody, scanLoop, parseDirective, str, perc, hD, h2, bind, Except.bind]
    · simp [StrftimeBody, scanLoop, parseDirective, str, perc, hD, h2, hr, bind, Except.bind]
  have hboth : ∀ depth : Nat,
      Strftime selfReferring depth (str "%c") t = .error .stackExhausted ∧
        Strftime selfReferring depth (str "%a %c") t = .error .stackExhausted := by
    intro depth
    induction depth with
    | zero => exact hstep _ rfl rfl
    | succ n ih => exact hstep _ ih.1 ih.2
  exact fun depth => (hboth depth).1

end lctime
